import Mathlib

/-!
Verification of the redrock redshift-scan engine (py/redrock/zscan.py,
py/redrock/utils.py).

Shallow embedding conventions:
* Machine floats are modelled as exact rationals (ℚ); numpy arrays become
  Lean lists; a 2-d array is a `List (List ℚ)` of rows.
* Sparse resampling matrices (`Spectrum.Rcsr`) are modelled densely: the CSR
  kernels of the source compute ordinary matrix products, which is what the
  dense model computes.
* `np.linalg.solve` raises `LinAlgError` exactly on singular systems; it is
  modelled by exact Gaussian elimination returning `Option`, `none` on a
  singular matrix.
* `cp.linalg.solve` (GPU) throws no error on singular systems (see the
  comment in `calc_zchi2_batch_v3`, zscan.py line 1005) and returns undefined
  junk there; it is modelled by the same elimination with the pivot check
  removed, where a zero pivot silently divides by zero (ℚ convention `x/0=0`).
* Python exceptions that cross function boundaries are modelled with
  `Except String`.
-/

/-- Rows-of-lists matrix of rationals. -/
abbrev Mat : Type := List (List ℚ)

/-- Dot product of two vectors (`np.dot` for 1-d arrays); truncates to the
shorter length like `zipWith`. -/
def dotL (xs ys : List ℚ) : ℚ := (List.zipWith (fun a b => a * b) xs ys).sum

/-- Matrix–vector product `A.dot(v)` for a rows-of-lists matrix. -/
def matVec (A : Mat) (v : List ℚ) : List ℚ := A.map (fun row => dotL row v)

/-- Transpose of a rows-of-lists matrix (numpy `.T` / `swapaxes(-2,-1)`). -/
def transposeM : Mat → Mat := List.transpose

/-- Matrix–matrix product `A.dot(B)` for rows-of-lists matrices. -/
def matMul (A B : Mat) : Mat := A.map (fun row => (transposeM B).map (fun col => dotL row col))

/-- Row-wise scaling `np.multiply(weights[:,None], T)`: multiply row `r` of
`T` by `weights[r]`. -/
def mulWeights (weights : List ℚ) (T : Mat) : Mat :=
  List.zipWith (fun w row => row.map (fun x => w * x)) weights T

/-- The sentinel chi-squared `9e99` marking an unfittable redshift, written
as the 100-digit decimal numeral so that kernel evaluation stays cheap. -/
def sentinel : ℚ := 9000000000000000000000000000000000000000000000000000000000000000000000000000000000000000000000000000

/-! ### Exact linear solver, modelling `np.linalg.solve` / `cp.linalg.solve` -/

/-- One elimination step: subtract `r/p` times the pivot row from a row,
dropping the leading column (`p` and `r` are the leading entries). -/
def elimRow (piv row : List ℚ) : List ℚ :=
  match piv, row with
  | p :: ps, r :: rs => List.zipWith (fun a b => b - r / p * a) ps rs
  | _, _ => []

/-- Select the first row with a nonzero leading entry as pivot; `none` when
the leading column is entirely zero (the singular case). -/
def choosePivot : List (List ℚ) → Option (List ℚ × List (List ℚ))
  | [] => none
  | r :: rs =>
    if r.headD 0 = 0 then
      match choosePivot rs with
      | none => none
      | some (p, rest) => some (p, r :: rest)
    else some (r, rs)

/-- Fuelled forward elimination on augmented rows; `none` on a singular
system. Returns the triangular rows (pivot row per variable, in order). -/
def gaussSolveAux : Nat → List (List ℚ) → Option (List (List ℚ))
  | 0, _ => some []
  | n + 1, rows =>
    match choosePivot rows with
    | none => none
    | some (piv, rest) =>
      match gaussSolveAux n (rest.map (elimRow piv)) with
      | none => none
      | some tri => some (piv :: tri)

/-- Back substitution on triangular augmented rows. -/
def backSub : List (List ℚ) → List ℚ
  | [] => []
  | row :: rest =>
    let xs := backSub rest
    let p := row.headD 1
    let rhs := (row.drop 1).getLastD 0
    let coeffs := (row.drop 1).dropLast
    (rhs - dotL coeffs xs) / p :: xs

/-- `np.linalg.solve M y`: the unique solution of `M·x = y`, `none` exactly
when the elimination meets a zero pivot column (`LinAlgError`). -/
def np_linalg_solve (M : Mat) (y : List ℚ) : Option (List ℚ) :=
  (gaussSolveAux M.length (List.zipWith (fun row b => row ++ [b]) M y)).map backSub

/-- Pivot selection of the unchecked GPU elimination: fall back to the first
row even when the whole leading column is zero. -/
def choosePivotGpu (rows : List (List ℚ)) : Option (List ℚ × List (List ℚ)) :=
  match choosePivot rows with
  | some pr => some pr
  | none =>
    match rows with
    | [] => none
    | r :: rs => some (r, rs)

/-- Forward elimination without the singularity check (GPU). -/
def gaussElimGpu : Nat → List (List ℚ) → List (List ℚ)
  | 0, _ => []
  | n + 1, rows =>
    match choosePivotGpu rows with
    | none => []
    | some (piv, rest) => piv :: gaussElimGpu n (rest.map (elimRow piv))

/-- `cp.linalg.solve M y`: same elimination but "There is no Error thrown by
cupy's version" (zscan.py line 1005) — on a singular system a zero pivot is
divided by, producing junk (ℚ division by zero yields 0). -/
def cp_linalg_solve (M : Mat) (y : List ℚ) : List ℚ :=
  backSub (gaussElimGpu M.length (List.zipWith (fun row b => row ++ [b]) M y))

/-! ### Spectral data model and the v3 chi-squared pipeline (zscan.py) -/

/-- One spectral band of a target: observed flux, inverse-variance weights,
and the (dense model of the) sparse resampling matrix `Rcsr` mapping the
template wavelength basis onto this band's observation grid.  The wavehash
key of the source is modelled positionally: template data for a target is a
list aligned with its spectra. -/
structure Spectrum where
  flux : List ℚ
  ivar : List ℚ
  Rcsr : Mat
deriving Repr, DecidableEq

/-- `spectral_data`: concatenate each band's ivar and flux in band order and
form the weighted flux `wflux = weights * flux` (zscan.py lines 291-308). -/
def spectral_data (spectra : List Spectrum) : List ℚ × List ℚ × List ℚ :=
  let weights := (spectra.map Spectrum.ivar).flatten
  let flux := (spectra.map Spectrum.flux).flatten
  let wflux := List.zipWith (fun a b => a * b) weights flux
  (weights, flux, wflux)

/-- `dot_product_sparse_one` (zscan.py lines 512-532): per band, project ONE
redshift's interpolated basis through the band's resampling matrix, and
stack all bands row-wise (`np.vstack`).  `tdataz` holds this redshift's
basis matrix for each band (the `tdata[s.wavehash]` dict lookup). -/
def dot_product_sparse_one (spectra : List Spectrum) (tdataz : List Mat) : Mat :=
  (List.zipWith (fun s td => matMul s.Rcsr td) spectra tdataz).flatten

/-- Loop body of the CPU branch of `calc_zchi2_batch_v3` (zscan.py lines
1024-1046): design matrix, normal equations, solve catching `LinAlgError`
(sentinel chi2 `9e99`, coefficient row left at its zero initialisation),
model and chi-squared. -/
def zchi2_one_cpu (spectra : List Spectrum) (weights flux wflux : List ℚ)
    (nbasis : Nat) (tdataz : List Mat) : ℚ × List ℚ :=
  let Tb := dot_product_sparse_one spectra tdataz
  let M := matMul (transposeM Tb) (mulWeights weights Tb)
  let y := matVec (transposeM Tb) wflux
  match np_linalg_solve M y with
  | none => (sentinel, List.replicate nbasis 0)
  | some c =>
    let model := matVec Tb c
    (dotL (List.zipWith (fun f m => (f - m) ^ 2) flux model) weights, c)

/-- CPU branch of `calc_zchi2_batch_v3` (zscan.py lines 1020-1046): loop the
per-redshift computation over the grid; `tdata` lists, per redshift, the
per-band basis matrices. -/
def calc_zchi2_batch_cpu (spectra : List Spectrum) (tdata : List (List Mat))
    (weights flux wflux : List ℚ) (nbasis : Nat) : List ℚ × List (List ℚ) :=
  let rs := tdata.map (zchi2_one_cpu spectra weights flux wflux nbasis)
  (rs.map Prod.fst, rs.map Prod.snd)

/-- Batched per-band sparse projections combined with `cp.hstack` along the
row axis (zscan.py lines 479-509): z-wise vertical concatenation of the
per-band batched products. -/
def hstackTbs : List (List Mat) → List Mat
  | [] => []
  | [x] => x
  | x :: xs => List.zipWith (fun a b => a ++ b) x (hstackTbs xs)

/-- `batch_dot_product_sparse_gpu` (zscan.py lines 457-509): for each band,
the CUDA kernel computes `Rcsr · tdata[key][z]` for every redshift `z` at
once; the per-band batches are then `cp.hstack`-ed.  `tdataG` lists, per
band (dict key), the per-redshift basis matrices. -/
def batch_dot_product_sparse_gpu (spectra : List Spectrum) (tdataG : List (List Mat)) : List Mat :=
  hstackTbs (List.zipWith (fun s tzs => tzs.map (fun td => matMul s.Rcsr td)) spectra tdataG)

/-- `calc_batch_dot_product_3d3d_gpu` (zscan.py lines 714-768): per redshift
`M[i] = a[i]ᵀ·b[i]` (with the optional transpose of `a`). -/
def calc_batch_dot_product_3d3d_gpu (a b : List Mat) (transpose_a : Bool) : List Mat :=
  List.zipWith (fun ai bi => matMul (if transpose_a then transposeM ai else ai) bi) a b

/-- `calc_batch_dot_product_3d2d_gpu` (zscan.py lines 665-704): per redshift
`model[i] = Tbs[i]·zc[i]`. -/
def calc_batch_dot_product_3d2d_gpu (Tbs : List Mat) (zc : List (List ℚ)) : List (List ℚ) :=
  List.zipWith matVec Tbs zc

/-- GPU branch of `calc_zchi2_batch_v3` (zscan.py lines 959-1019): batched
sparse projection, batched normal equations (variant C of the source), one
unchecked `cp.linalg.solve` for the whole batch, batched model and
chi-squared.  `tdataG` is the per-band batched layout built by
`calc_zchi2_v3` for the GPU path. -/
def calc_zchi2_batch_gpu (spectra : List Spectrum) (tdataG : List (List Mat))
    (weights flux wflux : List ℚ) : List ℚ × List (List ℚ) :=
  let Tbs := batch_dot_product_sparse_gpu spectra tdataG
  let all_M := calc_batch_dot_product_3d3d_gpu Tbs (Tbs.map (mulWeights weights)) true
  let all_y := Tbs.map (fun tb => matVec (transposeM tb) wflux)
  let zcoeff := List.zipWith cp_linalg_solve all_M all_y
  let model := calc_batch_dot_product_3d2d_gpu Tbs zcoeff
  let zchi2 := model.map (fun mo => dotL (List.zipWith (fun f m => (f - m) * (f - m)) flux mo) weights)
  (zchi2, zcoeff)

/-- `calc_zchi2_batch_v3` (zscan.py lines 937-1047).  The single `tdata`
argument of the source holds a per-redshift layout on the CPU path and a
per-band batched layout on the GPU path; `calc_zchi2_v3` prepares whichever
the chosen branch expects, exactly as the source does. -/
def calc_zchi2_batch_v3 (spectra : List Spectrum) (tdata : List (List Mat))
    (weights flux wflux : List ℚ) (nbasis : Nat) (use_gpu : Bool) : List ℚ × List (List ℚ) :=
  if use_gpu then calc_zchi2_batch_gpu spectra tdata weights flux wflux
  else calc_zchi2_batch_cpu spectra tdata weights flux wflux nbasis

/-- `linalg_solve_batch` (zscan.py lines 587-628): batched solve used by the
v2 algorithm.  The GPU branch solves all systems in one unchecked call and
reports no error for any redshift; the CPU branch loops, catching
`LinAlgError` per redshift in the `iserr` flags. -/
def linalg_solve_batch (all_M : List Mat) (all_y : List (List ℚ)) (use_gpu : Bool) :
    List (List ℚ) × List Bool :=
  if use_gpu then
    (List.zipWith cp_linalg_solve all_M all_y, List.replicate all_M.length false)
  else
    let rs := List.zipWith (fun M y =>
      match np_linalg_solve M y with
      | none => (List.replicate M.length 0, true)
      | some c => (c, false)) all_M all_y
    (rs.map Prod.fst, rs.map Prod.snd)

/-- A template: type tag, rest wavelength grid, basis tensor
(`flux : nbasis × nwave`) and basis dimension. -/
structure Template where
  template_type : String
  wave : List ℚ
  flux : Mat
  nbasis : Nat
deriving Repr, DecidableEq

/-- A target: its ordered spectral bands (the identifier plays no role in
the fit itself). -/
structure Target where
  spectra : List Spectrum
deriving Repr, DecidableEq

/-- `OIItemplate` (zscan.py lines 1086-1089): the template basis restricted
to the [OII] wavelength window `3724 ≤ wave ≤ 3733`, transposed to
rows-per-wavelength (`flux[:, isOII].T`). -/
def OIItemplate (t : Template) : Mat :=
  (List.zip t.wave (transposeM t.flux)).filterMap
    (fun p => if 3724 ≤ p.1 ∧ p.1 ≤ 3733 then some p.2 else none)

/-- Summed modelled [OII] flux of one redshift's fitted coefficients:
one entry of `np.sum(zcoeff[j] @ OIItemplate.T, axis=1)` (zscan.py 1121). -/
def OIIfluxOf (t : Template) (c : List ℚ) : ℚ :=
  ((OIItemplate t).map (fun row => dotL row c)).sum

/-- Combine the per-redshift template data into per-band batches for the GPU
path: `tdata[key] = cp.array([td[key] for td in dtemplate.local.data])`
(zscan.py lines 1092-1095), with dict keys modelled as band positions. -/
def combineTData (nbands : Nat) (dtlocal : List (List Mat)) : List (List Mat) :=
  (List.range nbands).map (fun key => dtlocal.map (fun tz => tz.getD key []))

/-- The batched fit of one target (zscan.py lines 1105-1117): the GPU path
first combines the per-redshift template data into per-band batches, the
CPU path passes it through unchanged (lines 1092-1098). -/
def calc_zchi2_v3_fit (t : Template) (dtlocal : List (List Mat)) (use_gpu : Bool)
    (tg : Target) : List ℚ × List (List ℚ) :=
  calc_zchi2_batch_v3 tg.spectra
    (if use_gpu then combineTData tg.spectra.length dtlocal else dtlocal)
    (spectral_data tg.spectra).1 (spectral_data tg.spectra).2.1
    (spectral_data tg.spectra).2.2 t.nbasis use_gpu

/-- The ad-hoc [OII] penalty row (zscan.py lines 1119-1122): for GALAXY
templates, `-OIIflux` where the summed modelled window flux is negative and
0 elsewhere; identically zero for every other template type. -/
def calc_zchi2_v3_penalty (t : Template) (nz : Nat) (zcoeff : List (List ℚ)) : List ℚ :=
  if t.template_type = "GALAXY" then
    zcoeff.map (fun c => if OIIfluxOf t c < 0 then -(OIIfluxOf t c) else 0)
  else List.replicate nz 0

/-- Per-target body of `calc_zchi2_v3` (zscan.py lines 1100-1122): aggregate
the spectra; on zero total weight set every chi-squared to `9e99` and leave
the zero-initialised coefficient and penalty rows untouched (`continue`);
otherwise run the batched fit and attach the penalty row. -/
def calc_zchi2_v3_one (t : Template) (dtlocal : List (List Mat)) (use_gpu : Bool)
    (tg : Target) : List ℚ × List (List ℚ) × List ℚ :=
  if (spectral_data tg.spectra).1.sum = 0 then
    (List.replicate dtlocal.length sentinel,
      List.replicate dtlocal.length (List.replicate t.nbasis 0),
      List.replicate dtlocal.length 0)
  else
    ((calc_zchi2_v3_fit t dtlocal use_gpu tg).1,
      (calc_zchi2_v3_fit t dtlocal use_gpu tg).2,
      calc_zchi2_v3_penalty t dtlocal.length (calc_zchi2_v3_fit t dtlocal use_gpu tg).2)

/-- `calc_zchi2_v3` (zscan.py lines 1055-1127): the scan over all targets
for one distributed template slice, returning per-target chi-squared,
coefficient and penalty arrays. -/
def calc_zchi2_v3 (targets : List Target) (t : Template) (dtlocal : List (List Mat))
    (use_gpu : Bool) : List (List ℚ) × List (List (List ℚ)) × List (List ℚ) :=
  let rs := targets.map (calc_zchi2_v3_one t dtlocal use_gpu)
  (rs.map (fun r => r.1), rs.map (fun r => r.2.1), rs.map (fun r => r.2.2))

/-! ### `distribute_work` (utils.py lines 177-219) -/

/-- One worker process of the greedy distribution: unique id (its position
in the process list), capacity and accumulated load. -/
structure ProcState where
  pid : Nat
  capacity : ℚ
  load : ℚ
deriving Repr, DecidableEq

/-- Python's `min` with a key: the first element whose key is minimal.
`lt p q` decides strict key order. -/
def pythonMin (lt : α → α → Bool) : List α → Option α
  | [] => none
  | x :: xs => some (xs.foldl (fun best y => if lt y best then y else best) x)

/-- Strict lexicographic order on the `(normalized load, 1/capacity, id)`
sort key of `distribute_work`. -/
def lexLt3 (a b : ℚ × ℚ × Nat) : Bool :=
  decide (a.1 < b.1) ||
    (decide (a.1 = b.1) && (decide (a.2.1 < b.2.1) ||
      (decide (a.2.1 = b.2.1) && decide (a.2.2 < b.2.2))))

/-- The sort key `((p.load + w)/p.capacity, 1/p.capacity, p.id)` of
utils.py line 213. -/
def codeKey (w : ℚ) (p : ProcState) : ℚ × ℚ × Nat :=
  ((p.load + w) / p.capacity, 1 / p.capacity, p.pid)

/-- Effective per-id weight: the `weights` dict, defaulting to weight 1 per
id when `None`; `none` models a `KeyError`. -/
def weightOf (weights : Option (List (Nat × ℚ))) (x : Nat) : Option ℚ :=
  match weights with
  | none => some 1
  | some m => m.lookup x

/-- Effective capacities: `[1] * nproc` when `None`. -/
def capsOf (nproc : Int) (capacities : Option (List ℚ)) : List ℚ :=
  match capacities with
  | none => List.replicate nproc.toNat 1
  | some cs => cs

/-- Loop body of `distribute_work` (utils.py lines 210-217): evaluate the
key of every process (a zero capacity raises `ZeroDivisionError`, an empty
process list raises `ValueError` from `min`), pick the first key-minimal
process, find its index by value equality, add the unit's weight to its
load and append the id to its assignment list (`IndexError` when the index
exceeds the assignment list). -/
def assignStep (st : List ProcState × List (List Nat)) (idw : Nat × ℚ) :
    Except String (List ProcState × List (List Nat)) :=
  if st.1.any (fun p => p.capacity = 0) then
    Except.error "ZeroDivisionError: division by zero"
  else
    match pythonMin (fun p q => lexLt3 (codeKey idw.2 p) (codeKey idw.2 q)) st.1 with
    | none => Except.error "ValueError: min() arg is an empty sequence"
    | some minload =>
      if st.1.findIdx (fun p => p == minload) < st.2.length then
        Except.ok
          (st.1.set (st.1.findIdx (fun p => p == minload))
            { minload with load := minload.load + idw.2 },
          st.2.set (st.1.findIdx (fun p => p == minload))
            (st.2.getD (st.1.findIdx (fun p => p == minload)) [] ++ [idw.1]))
      else Except.error "IndexError: list index out of range"

/-- Resolve each unit id's weight through the weights dict; Python's sort
evaluates `weights[x]` for every id, so any missing id raises `KeyError`. -/
def resolveWeights (weights : Option (List (Nat × ℚ))) : List Nat →
    Except String (List (Nat × ℚ))
  | [] => Except.ok []
  | x :: xs =>
    match weightOf weights x with
    | none => Except.error "KeyError"
    | some w =>
      match resolveWeights weights xs with
      | Except.error e => Except.error e
      | Except.ok rest => Except.ok ((x, w) :: rest)

/-- The assignment loop of `distribute_work` over the sorted units. -/
def assignLoop : List (Nat × ℚ) → (List ProcState × List (List Nat)) →
    Except String (List ProcState × List (List Nat))
  | [], st => Except.ok st
  | idw :: rest, st =>
    match assignStep st idw with
    | Except.error e => Except.error e
    | Except.ok st2 => assignLoop rest st2

/-- `distribute_work(nproc, ids, weights, capacities)` (utils.py lines
177-219).  Python's stable descending sort by weight is modelled by
insertion sort on the `(id, weight)` pairs with relation `b.2 ≤ a.2`
(stable descending sorts are extensionally unique). -/
def distribute_work (nproc : Int) (ids : List Nat)
    (weights : Option (List (Nat × ℚ))) (capacities : Option (List ℚ)) :
    Except String (List (List Nat)) :=
  match resolveWeights weights ids with
  | Except.error e => Except.error e
  | Except.ok wpairs =>
    match assignLoop (List.insertionSort (fun a b : Nat × ℚ => b.2 ≤ a.2) wpairs)
        ((capsOf nproc capacities).enum.map (fun ic => ProcState.mk ic.1 ic.2 0),
          List.replicate nproc.toNat []) with
    | Except.error e => Except.error e
    | Except.ok final => Except.ok final.2

/-- Strict "better worker" comparison of the specification: smaller
normalized load `(load + w)/capacity`, ties broken by larger capacity, then
by smaller worker index. -/
def specBetter (w : ℚ) (p q : ProcState) : Bool :=
  decide ((p.load + w) / p.capacity < (q.load + w) / q.capacity) ||
    (decide ((p.load + w) / p.capacity = (q.load + w) / q.capacity) &&
      (decide (q.capacity < p.capacity) ||
        (decide (q.capacity = p.capacity) && decide (p.pid < q.pid))))

/-- One assignment of the specification's greedy loop: give the unit to the
best worker (smallest normalized load, ties to larger capacity then smaller
index) and add its weight to that worker's load. -/
def specAssignStep (st : List ProcState × List (List Nat)) (idw : Nat × ℚ) :
    List ProcState × List (List Nat) :=
  match pythonMin (specBetter idw.2) st.1 with
  | none => st
  | some minload =>
    (st.1.set minload.pid { minload with load := minload.load + idw.2 },
      st.2.set minload.pid (st.2.getD minload.pid [] ++ [idw.1]))

/-- Modelled from the spec (section 4.1): the reference greedy algorithm.
Sort unit ids by weight descending (stable); assign each unit to the worker
minimizing `(currentLoad + unitWeight)/capacity`, ties broken first by
larger capacity then by smallest worker index; add the unit's weight to the
chosen worker's load.  Weights default to 1 per unit and capacities to 1
per worker. -/
def distributeSpec (nproc : Int) (ids : List Nat)
    (weights : Option (List (Nat × ℚ))) (capacities : Option (List ℚ)) :
    List (List Nat) :=
  ((List.insertionSort (fun a b : Nat × ℚ => b.2 ≤ a.2)
      (ids.map (fun x => (x, (weightOf weights x).getD 1)))).foldl specAssignStep
    ((capsOf nproc capacities).enum.map (fun ic => ProcState.mk ic.1 ic.2 0),
      List.replicate nproc.toNat [])).2

/-! ### Distributed-ring result merging (zscan.py lines 1493-1554)

The `DistTemplate` slice and rotation machinery lives in
`py/redrock/templates.py`, which is not part of this source tree; following
the specification, a worker's accumulated results are a finite map from
slice index to that slice's result array, with one entry per slice of the
template's redshift grid. -/

/-- The merging step of `calc_zchi2_targets` for the distributed-ring mode
(zscan.py lines 1551-1554): concatenate the per-slice arrays in ascending
slice-index order (`np.concatenate` over `sorted(keys)`). -/
def mergeRingSlices (acc : List (Nat × List α)) : List α :=
  ((List.insertionSort (fun a b : Nat => a ≤ b) (acc.map Prod.fst)).map
    (fun p => (acc.lookup p).getD [])).flatten

/-- Modelled from the spec (sections 3 and 4.5): the per-slice results of
one target, tagged by slice index — slice `p` of a slice decomposition
`slices` of the redshift grid carries the result array `slices.get p`; the
rotation protocol delivers them in an arbitrary arrival order (a
permutation). -/
def sliceResults (slices : List (List α)) : List (Nat × List α) :=
  (List.range slices.length).zip slices

/-! ### Helper lemmas -/

theorem getD_map_of_lt (f : α → β) (l : List α) (i : Nat) (d : β) (d' : α)
    (h : i < l.length) : (l.map f).getD i d = f (l.getD i d') := by
  rw [List.getD_eq_getElem?_getD, List.getD_eq_getElem?_getD, List.getElem?_map,
    List.getElem?_eq_getElem h]
  simp

theorem dotL_replicate_zero (row : List ℚ) (n : Nat) :
    dotL row (List.replicate n 0) = 0 := by
  induction row generalizing n with
  | nil => simp [dotL]
  | cons a as ih =>
    cases n with
    | zero => simp [dotL]
    | succ m =>
      simp only [List.replicate_succ, dotL, List.zipWith_cons_cons, List.sum_cons, mul_zero]
      have := ih m
      simp only [dotL] at this
      simp [this]

/-- The per-redshift normal equations `(M, y)` of the chi-squared fit. -/
def normalEqs (spectra : List Spectrum) (weights wflux : List ℚ) (tdataz : List Mat) :
    Mat × List ℚ :=
  let Tb := dot_product_sparse_one spectra tdataz
  (matMul (transposeM Tb) (mulWeights weights Tb), matVec (transposeM Tb) wflux)

theorem zchi2_one_cpu_of_singular (spectra : List Spectrum) (weights flux wflux : List ℚ)
    (nbasis : Nat) (tdataz : List Mat)
    (h : np_linalg_solve (normalEqs spectra weights wflux tdataz).1
      (normalEqs spectra weights wflux tdataz).2 = none) :
    zchi2_one_cpu spectra weights flux wflux nbasis tdataz = (sentinel, List.replicate nbasis 0) := by
  unfold zchi2_one_cpu
  unfold normalEqs at h
  simp only at h
  simp [h]

/-- Claim C2: in the batched CPU fit, the result at redshift `i` is exactly
the per-redshift computation on that redshift's template data alone (so a
singular redshift cannot affect any other entry of the batch, and the total
function returns normally — no exception propagates); and when the normal
equations at redshift `i` are singular, that redshift's chi-squared is
exactly `9e99` and its coefficient vector is all zeros. -/
theorem singular_redshift_sentinel (spectra : List Spectrum) (tdata : List (List Mat))
    (weights flux wflux : List ℚ) (nbasis : Nat) (i : Nat) (hi : i < tdata.length) :
    ((calc_zchi2_batch_v3 spectra tdata weights flux wflux nbasis false).1.getD i 0 =
        (zchi2_one_cpu spectra weights flux wflux nbasis (tdata.getD i [])).1 ∧
      (calc_zchi2_batch_v3 spectra tdata weights flux wflux nbasis false).2.getD i [] =
        (zchi2_one_cpu spectra weights flux wflux nbasis (tdata.getD i [])).2) ∧
    (np_linalg_solve (normalEqs spectra weights wflux (tdata.getD i [])).1
        (normalEqs spectra weights wflux (tdata.getD i [])).2 = none →
      (calc_zchi2_batch_v3 spectra tdata weights flux wflux nbasis false).1.getD i 0 =
          sentinel ∧
        (calc_zchi2_batch_v3 spectra tdata weights flux wflux nbasis false).2.getD i [] =
          List.replicate nbasis 0) := by
  have h1 : (calc_zchi2_batch_v3 spectra tdata weights flux wflux nbasis false).1.getD i 0 =
      (zchi2_one_cpu spectra weights flux wflux nbasis (tdata.getD i [])).1 := by
    unfold calc_zchi2_batch_v3 calc_zchi2_batch_cpu
    simp only [if_neg (Bool.false_ne_true), List.map_map]
    exact getD_map_of_lt _ tdata i 0 [] hi
  have h2 : (calc_zchi2_batch_v3 spectra tdata weights flux wflux nbasis false).2.getD i [] =
      (zchi2_one_cpu spectra weights flux wflux nbasis (tdata.getD i [])).2 := by
    unfold calc_zchi2_batch_v3 calc_zchi2_batch_cpu
    simp only [if_neg (Bool.false_ne_true), List.map_map]
    exact getD_map_of_lt _ tdata i [] [] hi
  refine ⟨⟨h1, h2⟩, fun hsing => ?_⟩
  have := zchi2_one_cpu_of_singular spectra weights flux wflux nbasis (tdata.getD i []) hsing
  rw [h1, h2, this]
  exact ⟨rfl, rfl⟩

theorem singular_redshift_sentinel_witness :
    (0 : Nat) < ([[[[0]]], [[[1]]]] : List (List Mat)).length ∧
    np_linalg_solve
        (normalEqs [⟨[1], [1], [[1]]⟩] [1] [1]
          (([[[[0]]], [[[1]]]] : List (List Mat)).getD 0 [])).1
        (normalEqs [⟨[1], [1], [[1]]⟩] [1] [1]
          (([[[[0]]], [[[1]]]] : List (List Mat)).getD 0 [])).2 = none ∧
    (calc_zchi2_batch_v3 [⟨[1], [1], [[1]]⟩] [[[[0]]], [[[1]]]] [1] [1] [1] 1 false).1.getD 0 0 =
        sentinel ∧
    (calc_zchi2_batch_v3 [⟨[1], [1], [[1]]⟩] [[[[0]]], [[[1]]]] [1] [1] [1] 1 false).2.getD 0 [] =
      List.replicate 1 0 := by
  refine ⟨by decide, by with_unfolding_all decide, ?_⟩
  have h := (singular_redshift_sentinel [⟨[1], [1], [[1]]⟩] [[[[0]]], [[[1]]]] [1] [1] [1] 1 0
    (by decide)).2 (by with_unfolding_all decide)
  exact h

/-- Claim C3: a target whose concatenated inverse-variance weights sum to
zero gets chi-squared `9e99` at every redshift of the grid, for every
template type and execution path; the early-exit branch returns before any
linear algebra is reached. -/
theorem zero_weight_short_circuit (targets : List Target) (t : Template)
    (dtlocal : List (List Mat)) (use_gpu : Bool) (j : Nat) (hj : j < targets.length)
    (hz : (spectral_data (targets.getD j ⟨[]⟩).spectra).1.sum = 0) :
    (calc_zchi2_v3 targets t dtlocal use_gpu).1.getD j [] =
      List.replicate dtlocal.length sentinel := by
  unfold calc_zchi2_v3
  simp only [List.map_map]
  rw [getD_map_of_lt _ targets j [] ⟨[]⟩ hj]
  unfold calc_zchi2_v3_one
  simp only [Function.comp_apply]
  rw [if_pos hz]

theorem zero_weight_short_circuit_witness :
    (0 : Nat) < ([⟨[{ flux := [1, 2], ivar := [0, 0], Rcsr := [[1, 0], [0, 1]] }]⟩] :
        List Target).length ∧
    (spectral_data (([⟨[{ flux := [1, 2], ivar := [0, 0], Rcsr := [[1, 0], [0, 1]] }]⟩] :
        List Target).getD 0 ⟨[]⟩).spectra).1.sum = 0 ∧
    (calc_zchi2_v3 [⟨[{ flux := [1, 2], ivar := [0, 0], Rcsr := [[1, 0], [0, 1]] }]⟩]
        ⟨"GALAXY", [3724], [[1]], 1⟩ [[[[1], [0]]], [[[1], [1]]]] true).1.getD 0 [] =
      List.replicate 2 sentinel := by
  refine ⟨by decide, by with_unfolding_all decide, ?_⟩
  exact zero_weight_short_circuit [⟨[{ flux := [1, 2], ivar := [0, 0], Rcsr := [[1, 0], [0, 1]] }]⟩]
    ⟨"GALAXY", [3724], [[1]], 1⟩ [[[[1], [0]]], [[[1], [1]]]] true 0 (by decide)
    (by with_unfolding_all decide)

/-- Claim C10: a target whose concatenated inverse-variance weights sum to
zero also gets all-zero coefficient vectors and exactly-zero penalties at
every redshift — for every template type, GALAXY included, since the
early-exit `continue` skips the [OII] penalty block as well. -/
theorem zero_weight_zero_coeff_penalty (targets : List Target) (t : Template)
    (dtlocal : List (List Mat)) (use_gpu : Bool) (j : Nat) (hj : j < targets.length)
    (hz : (spectral_data (targets.getD j ⟨[]⟩).spectra).1.sum = 0) :
    (calc_zchi2_v3 targets t dtlocal use_gpu).2.1.getD j [] =
        List.replicate dtlocal.length (List.replicate t.nbasis 0) ∧
      (calc_zchi2_v3 targets t dtlocal use_gpu).2.2.getD j [] =
        List.replicate dtlocal.length 0 := by
  unfold calc_zchi2_v3
  simp only [List.map_map]
  rw [getD_map_of_lt _ targets j [] ⟨[]⟩ hj, getD_map_of_lt _ targets j [] ⟨[]⟩ hj]
  unfold calc_zchi2_v3_one
  simp only [Function.comp_apply]
  rw [if_pos hz]
  exact ⟨rfl, rfl⟩

theorem zero_weight_zero_coeff_penalty_witness :
    (0 : Nat) < ([⟨[{ flux := [1, 2], ivar := [0, 0], Rcsr := [[1, 0], [0, 1]] }]⟩] :
        List Target).length ∧
    (spectral_data (([⟨[{ flux := [1, 2], ivar := [0, 0], Rcsr := [[1, 0], [0, 1]] }]⟩] :
        List Target).getD 0 ⟨[]⟩).spectra).1.sum = 0 ∧
    (calc_zchi2_v3 [⟨[{ flux := [1, 2], ivar := [0, 0], Rcsr := [[1, 0], [0, 1]] }]⟩]
        ⟨"GALAXY", [3724], [[1]], 1⟩ [[[[1], [0]]], [[[1], [1]]]] false).2.1.getD 0 [] =
      List.replicate 2 (List.replicate 1 0) ∧
    (calc_zchi2_v3 [⟨[{ flux := [1, 2], ivar := [0, 0], Rcsr := [[1, 0], [0, 1]] }]⟩]
        ⟨"GALAXY", [3724], [[1]], 1⟩ [[[[1], [0]]], [[[1], [1]]]] false).2.2.getD 0 [] =
      List.replicate 2 0 := by
  refine ⟨by decide, by with_unfolding_all decide, ?_⟩
  have h := zero_weight_zero_coeff_penalty
    [⟨[{ flux := [1, 2], ivar := [0, 0], Rcsr := [[1, 0], [0, 1]] }]⟩]
    ⟨"GALAXY", [3724], [[1]], 1⟩ [[[[1], [0]]], [[[1], [1]]]] false 0 (by decide)
    (by with_unfolding_all decide)
  exact ⟨h.1, h.2⟩

/-- Modelled from the spec (section 4.4): restrict the template basis to the
fixed [OII] emission window `3724 ≤ wave ≤ 3733` and recompute the modelled
flux in that window from the fitted coefficients, summing over the window
wavelengths. -/
def specOIIWindowFlux (t : Template) (c : List ℚ) : ℚ :=
  (((List.zip t.wave (transposeM t.flux)).filter
      (fun p => decide (3724 ≤ p.1) && decide (p.1 ≤ 3733))).map
    (fun p => dotL p.2 c)).sum

/-- Modelled from the spec (section 4.4): the penalty is the negated (hence
positive) summed window flux when that sum is negative and exactly zero
otherwise. -/
def penaltySpec (t : Template) (c : List ℚ) : ℚ :=
  if specOIIWindowFlux t c < 0 then -specOIIWindowFlux t c else 0

theorem OIItemplate_eq_filter (t : Template) :
    OIItemplate t = ((List.zip t.wave (transposeM t.flux)).filter
      (fun p => decide (3724 ≤ p.1) && decide (p.1 ≤ 3733))).map Prod.snd := by
  unfold OIItemplate
  induction List.zip t.wave (transposeM t.flux) with
  | nil => rfl
  | cons p l ih =>
    by_cases h : 3724 ≤ p.1 ∧ p.1 ≤ 3733
    · simp [List.filterMap_cons, List.filter_cons, h.1, h.2, ih]
    · simp [List.filterMap_cons, List.filter_cons, Bool.and_eq_true,
        decide_eq_true_eq, h, ih]

theorem OIIfluxOf_eq_spec (t : Template) (c : List ℚ) :
    OIIfluxOf t c = specOIIWindowFlux t c := by
  unfold OIIfluxOf specOIIWindowFlux
  rw [OIItemplate_eq_filter, List.map_map]
  rfl

theorem penaltySpec_zero_coeff (t : Template) (n : Nat) :
    penaltySpec t (List.replicate n 0) = 0 := by
  have h : specOIIWindowFlux t (List.replicate n 0) = 0 := by
    unfold specOIIWindowFlux
    apply List.sum_eq_zero
    intro x hx
    rcases List.mem_map.mp hx with ⟨p, _, hp⟩
    rw [← hp, dotL_replicate_zero]
  unfold penaltySpec
  rw [h]
  simp

/-- Claim C4: the penalty column of the per-target scan obeys the [OII]
rule — for template type GALAXY it equals, per redshift, the spec-side
penalty recomputed from the returned fitted coefficients (negated summed
window flux when negative, zero otherwise, over the fixed 3724–3733
window); for every other template type it is identically zero. -/
theorem oii_penalty_rule (t : Template) (dtlocal : List (List Mat)) (use_gpu : Bool)
    (tg : Target) :
    (calc_zchi2_v3_one t dtlocal use_gpu tg).2.2 =
      if t.template_type = "GALAXY" then
        (calc_zchi2_v3_one t dtlocal use_gpu tg).2.1.map (penaltySpec t)
      else List.replicate dtlocal.length 0 := by
  have hpen : ∀ zc : List (List ℚ), zc.map (fun c => if OIIfluxOf t c < 0 then
      -(OIIfluxOf t c) else 0) = zc.map (penaltySpec t) := by
    intro zc
    apply List.map_congr_left
    intro c _
    rw [OIIfluxOf_eq_spec]
    rfl
  unfold calc_zchi2_v3_one
  by_cases hz : (spectral_data tg.spectra).1.sum = 0
  · rw [if_pos hz]
    by_cases hty : t.template_type = "GALAXY"
    · simp only [if_pos hty]
      simp [List.map_replicate, penaltySpec_zero_coeff]
    · simp only [if_neg hty]
  · rw [if_neg hz]
    unfold calc_zchi2_v3_penalty
    by_cases hty : t.template_type = "GALAXY"
    · simp only [if_pos hty]
      exact hpen _
    · simp only [if_neg hty]

theorem zipWith_map_same (f : β → γ → δ) (g : α → β) (h : α → γ) (l : List α) :
    List.zipWith f (l.map g) (l.map h) = l.map (fun x => f (g x) (h x)) := by
  induction l with
  | nil => rfl
  | cons a as ih => simp [ih]

theorem combineTData_succ (n : Nat) (dt : List (List Mat)) :
    combineTData (n + 1) dt =
      dt.map (fun tz => tz.getD 0 []) :: combineTData n (dt.map List.tail) := by
  unfold combineTData
  rw [List.range_succ_eq_map, List.map_cons, List.map_map]
  congr 1
  apply List.map_congr_left
  intro k _
  simp only [Function.comp_apply, List.map_map]
  apply List.map_congr_left
  intro tz _
  cases tz <;> rfl

theorem hstackTbs_cons (x : List Mat) (xs : List (List Mat)) (h : xs ≠ []) :
    hstackTbs (x :: xs) = List.zipWith (fun a b => a ++ b) x (hstackTbs xs) := by
  cases xs with
  | nil => exact absurd rfl h
  | cons y ys => rfl

theorem gpuTbs_eq (spectra : List Spectrum) (dt : List (List Mat))
    (hne : spectra ≠ [])
    (hrect : ∀ tz ∈ dt, tz.length = spectra.length) :
    batch_dot_product_sparse_gpu spectra (combineTData spectra.length dt) =
      dt.map (dot_product_sparse_one spectra) := by
  induction spectra generalizing dt with
  | nil => exact absurd rfl hne
  | cons s ss ih =>
    cases ss with
    | nil =>
      unfold batch_dot_product_sparse_gpu
      have h1 : combineTData ([s] : List Spectrum).length dt =
          [dt.map (fun tz => tz.getD 0 [])] := by
        rw [show ([s] : List Spectrum).length = 0 + 1 from rfl, combineTData_succ]
        rfl
      rw [h1]
      simp only [List.zipWith_cons_cons, List.zipWith_nil_right, List.map_map]
      show (dt.map fun tz => matMul s.Rcsr (tz.getD 0 [])) = _
      apply List.map_congr_left
      intro tz htz
      have hlen := hrect tz htz
      cases tz with
      | nil => simp at hlen
      | cons a as =>
        have has : as = [] := by
          simp only [List.length_cons, List.length_nil] at hlen
          exact List.eq_nil_of_length_eq_zero (by omega)
        subst has
        simp [dot_product_sparse_one]
    | cons s2 ss2 =>
      have hlen1 : (s :: s2 :: ss2 : List Spectrum).length = (s2 :: ss2).length + 1 := rfl
      unfold batch_dot_product_sparse_gpu
      rw [hlen1, combineTData_succ, List.zipWith_cons_cons]
      have hne2 : List.zipWith (fun s tzs => tzs.map (fun td => matMul s.Rcsr td))
          (s2 :: ss2) (combineTData (s2 :: ss2).length (dt.map List.tail)) ≠ [] := by
        have hl : (combineTData (s2 :: ss2).length (dt.map List.tail)).length =
            (s2 :: ss2).length := by
          unfold combineTData
          simp
        intro hcon
        have h2 := congrArg List.length hcon
        rw [List.length_zipWith, hl, Nat.min_self] at h2
        simp at h2
      rw [hstackTbs_cons _ _ hne2]
      have hrest : hstackTbs (List.zipWith (fun s tzs => tzs.map (fun td => matMul s.Rcsr td))
          (s2 :: ss2) (combineTData (s2 :: ss2).length (dt.map List.tail))) =
          (dt.map List.tail).map (dot_product_sparse_one (s2 :: ss2)) := by
        have hr2 : ∀ tz ∈ dt.map List.tail, tz.length = (s2 :: ss2).length := by
          intro tz htz
          rcases List.mem_map.mp htz with ⟨tz0, htz0, rfl⟩
          have := hrect tz0 htz0
          simp only [List.length_tail, this]
          rfl
        have := ih (dt.map List.tail) (by simp) hr2
        unfold batch_dot_product_sparse_gpu at this
        exact this
      rw [hrest, List.map_map, List.map_map, zipWith_map_same]
      apply List.map_congr_left
      intro tz htz
      have hlen := hrect tz htz
      cases tz with
      | nil => simp at hlen
      | cons a as => simp [dot_product_sparse_one]

theorem gaussElimGpu_of_some (n : Nat) :
    ∀ (rows tri : List (List ℚ)), gaussSolveAux n rows = some tri →
      gaussElimGpu n rows = tri := by
  induction n with
  | zero =>
    intro rows tri h
    simp only [gaussSolveAux, Option.some_inj] at h
    simp [gaussElimGpu, ← h]
  | succ m ih =>
    intro rows tri h
    rw [gaussSolveAux] at h
    split at h
    · exact absurd h (by simp)
    case h_2 piv rest hcp =>
      split at h
      · exact absurd h (by simp)
      case h_2 tri2 hrec =>
        simp only [Option.some_inj] at h
        simp only [gaussElimGpu, choosePivotGpu, hcp]
        rw [ih _ _ hrec, ← h]

theorem cp_linalg_solve_of_some (M : Mat) (y c : List ℚ)
    (h : np_linalg_solve M y = some c) : cp_linalg_solve M y = c := by
  unfold np_linalg_solve at h
  unfold cp_linalg_solve
  cases haux : gaussSolveAux M.length (List.zipWith (fun row b => row ++ [b]) M y) with
  | none => rw [haux] at h; exact absurd h (by simp)
  | some tri =>
    rw [haux] at h
    simp at h
    rw [gaussElimGpu_of_some _ _ _ haux, h]

theorem chi2_sq_form (flux mo w : List ℚ) :
    dotL (List.zipWith (fun f m => (f - m) * (f - m)) flux mo) w =
      dotL (List.zipWith (fun f m => (f - m) ^ 2) flux mo) w := by
  have h : (fun (f m : ℚ) => (f - m) * (f - m)) = fun f m => (f - m) ^ 2 := by
    funext a b
    ring
  rw [h]

theorem calc_zchi2_batch_v3_true (spectra : List Spectrum) (tdata : List (List Mat))
    (weights flux wflux : List ℚ) (nbasis : Nat) :
    calc_zchi2_batch_v3 spectra tdata weights flux wflux nbasis true =
      calc_zchi2_batch_gpu spectra tdata weights flux wflux := rfl

theorem calc_zchi2_batch_v3_false (spectra : List Spectrum) (tdata : List (List Mat))
    (weights flux wflux : List ℚ) (nbasis : Nat) :
    calc_zchi2_batch_v3 spectra tdata weights flux wflux nbasis false =
      calc_zchi2_batch_cpu spectra tdata weights flux wflux nbasis := rfl

theorem calc_batch_dot_product_3d3d_gpu_true (a b : List Mat) :
    calc_batch_dot_product_3d3d_gpu a b true =
      List.zipWith (fun ai bi => matMul (transposeM ai) bi) a b := rfl

/-- Claim C1 (amended part): on a redshift grid where the normal-equations
matrix of every redshift is nonsingular, the GPU path and the CPU path of
`calc_zchi2_batch_v3` return exactly equal chi-squared and coefficient
vectors (in this exact-arithmetic model the floating tolerance becomes
equality, so in particular the minimum-chi-squared redshift agrees). -/
theorem calc_zchi2_batch_v3_equiv (spectra : List Spectrum) (dt : List (List Mat))
    (weights flux wflux : List ℚ) (nbasis : Nat)
    (hne : spectra ≠ [])
    (hrect : ∀ tz ∈ dt, tz.length = spectra.length)
    (hns : ∀ tz ∈ dt, (np_linalg_solve (normalEqs spectra weights wflux tz).1
        (normalEqs spectra weights wflux tz).2).isSome) :
    calc_zchi2_batch_v3 spectra (combineTData spectra.length dt) weights flux wflux nbasis true =
      calc_zchi2_batch_v3 spectra dt weights flux wflux nbasis false := by
  rw [calc_zchi2_batch_v3_true, calc_zchi2_batch_v3_false]
  simp only [calc_zchi2_batch_gpu, calc_zchi2_batch_cpu, calc_batch_dot_product_3d2d_gpu]
  rw [gpuTbs_eq spectra dt hne hrect, calc_batch_dot_product_3d3d_gpu_true]
  simp only [List.map_map, zipWith_map_same, Function.comp_apply]
  refine Prod.ext ?_ ?_
  · apply List.map_congr_left
    intro tz htz
    rcases Option.isSome_iff_exists.mp (hns tz htz) with ⟨c, hc⟩
    simp only [normalEqs] at hc
    simp only [Function.comp_apply]
    rw [cp_linalg_solve_of_some _ _ _ hc]
    simp only [zchi2_one_cpu]
    rw [hc]
    exact chi2_sq_form flux _ weights
  · apply List.map_congr_left
    intro tz htz
    rcases Option.isSome_iff_exists.mp (hns tz htz) with ⟨c, hc⟩
    simp only [normalEqs] at hc
    simp only [Function.comp_apply]
    rw [cp_linalg_solve_of_some _ _ _ hc]
    simp only [zchi2_one_cpu]
    rw [hc]

theorem sentinel_eq_nine_times_ten_pow : sentinel = 9 * 10 ^ 99 := by
  unfold sentinel
  norm_num

theorem cpu_gpu_sentinel_divergence :
    (calc_zchi2_batch_v3 [⟨[1], [1], [[1]]⟩] [[[[0]]]] [1] [1] [1] 1 false).1 = [sentinel] ∧
    (calc_zchi2_batch_v3 [⟨[1], [1], [[1]]⟩] (combineTData 1 [[[[0]]]]) [1] [1] [1] 1 true).1 =
      [1] ∧
    sentinel ≠ 1 :=
  ⟨by with_unfolding_all rfl, by with_unfolding_all rfl, by with_unfolding_all decide⟩

theorem calc_zchi2_batch_v3_equiv_witness :
    (([⟨[1], [1], [[1]]⟩] : List Spectrum) ≠ []) ∧
    (∀ tz ∈ ([[[[1]]]] : List (List Mat)), tz.length = ([⟨[1], [1], [[1]]⟩] :
      List Spectrum).length) ∧
    (∀ tz ∈ ([[[[1]]]] : List (List Mat)),
      (np_linalg_solve (normalEqs [⟨[1], [1], [[1]]⟩] [1] [1] tz).1
        (normalEqs [⟨[1], [1], [[1]]⟩] [1] [1] tz).2).isSome) ∧
    calc_zchi2_batch_v3 [⟨[1], [1], [[1]]⟩]
        (combineTData ([⟨[1], [1], [[1]]⟩] : List Spectrum).length [[[[1]]]]) [1] [1] [1] 1 true =
      calc_zchi2_batch_v3 [⟨[1], [1], [[1]]⟩] [[[[1]]]] [1] [1] [1] 1 false := by
  refine ⟨by decide, by decide, by with_unfolding_all decide, ?_⟩
  exact calc_zchi2_batch_v3_equiv [⟨[1], [1], [[1]]⟩] [[[[1]]]] [1] [1] [1] 1
    (by decide) (by decide) (by with_unfolding_all decide)

theorem foldl_min_keep (lt : α → α → Bool) (b : α) (l : List α)
    (h : ∀ y ∈ l, lt y b = false) :
    l.foldl (fun best y => if lt y best then y else best) b = b := by
  induction l with
  | nil => rfl
  | cons y ys ih =>
    have hy := h y (List.mem_cons_self y ys)
    simp only [List.foldl_cons, hy, Bool.false_eq_true, if_false]
    exact ih (fun z hz => h z (List.mem_cons_of_mem _ hz))

theorem pythonMin_keep (lt : α → α → Bool) (x : α) (xs : List α)
    (h : ∀ y ∈ xs, lt y x = false) : pythonMin lt (x :: xs) = some x := by
  simp only [pythonMin, Option.some_inj]
  exact foldl_min_keep lt x xs h

theorem pythonMin_switch (lt : α → α → Bool) (x z : α) (lA lB : List α)
    (hA : ∀ y ∈ lA, lt y x = false) (hz : lt z x = true)
    (hB : ∀ y ∈ lB, lt y z = false) :
    pythonMin lt (x :: (lA ++ z :: lB)) = some z := by
  simp only [pythonMin, List.foldl_append, foldl_min_keep lt x lA hA, List.foldl_cons, hz,
    if_true, Option.some_inj]
  exact foldl_min_keep lt z lB hB

theorem foldl_min_mem (lt : α → α → Bool) : ∀ (xs : List α) (b : α),
    xs.foldl (fun best y => if lt y best then y else best) b = b ∨
      xs.foldl (fun best y => if lt y best then y else best) b ∈ xs := by
  intro xs
  induction xs with
  | nil => intro b; exact Or.inl rfl
  | cons y ys ih =>
    intro b
    simp only [List.foldl_cons]
    rcases ih (if lt y b then y else b) with h | h
    · rw [h]
      by_cases hc : lt y b
      · simp only [hc, if_true]
        exact Or.inr (List.mem_cons_self _ _)
      · simp only [Bool.not_eq_true] at hc
        simp only [hc, Bool.false_eq_true, if_false]
        exact Or.inl trivial
    · exact Or.inr (List.mem_cons_of_mem _ h)

theorem pythonMin_mem (lt : α → α → Bool) (l : List α) (m : α)
    (h : pythonMin lt l = some m) : m ∈ l := by
  cases l with
  | nil => simp [pythonMin] at h
  | cons x xs =>
    simp only [pythonMin, Option.some_inj] at h
    rcases foldl_min_mem lt xs x with h2 | h2 <;> rw [h] at h2
    · exact h2 ▸ List.mem_cons_self _ _
    · exact List.mem_cons_of_mem _ h2

theorem foldl_min_congr (lt1 lt2 : α → α → Bool) : ∀ (xs : List α) (b : α),
    (∀ y ∈ xs, ∀ q, (q = b ∨ q ∈ xs) → lt1 y q = lt2 y q) →
    xs.foldl (fun best y => if lt1 y best then y else best) b =
      xs.foldl (fun best y => if lt2 y best then y else best) b := by
  intro xs
  induction xs with
  | nil => intro b _; rfl
  | cons y ys ih =>
    intro b h
    have hy : lt1 y b = lt2 y b := h y (List.mem_cons_self _ _) b (Or.inl rfl)
    simp only [List.foldl_cons, ← hy]
    apply ih
    intro z hz q hq
    refine h z (List.mem_cons_of_mem _ hz) q ?_
    rcases hq with hq | hq
    · by_cases hc : lt1 y b
      · simp only [hc, if_true] at hq
        exact Or.inr (hq ▸ List.mem_cons_self _ _)
      · simp only [Bool.not_eq_true] at hc
        simp only [hc, Bool.false_eq_true, if_false] at hq
        exact Or.inl hq
    · exact Or.inr (List.mem_cons_of_mem _ hq)

theorem pythonMin_congr (lt1 lt2 : α → α → Bool) (l : List α)
    (h : ∀ p ∈ l, ∀ q ∈ l, lt1 p q = lt2 p q) : pythonMin lt1 l = pythonMin lt2 l := by
  cases l with
  | nil => rfl
  | cons x xs =>
    simp only [pythonMin, Option.some_inj]
    apply foldl_min_congr
    intro y hy q hq
    refine h y (List.mem_cons_of_mem _ hy) q ?_
    rcases hq with hq | hq
    · exact hq ▸ List.mem_cons_self _ _
    · exact List.mem_cons_of_mem _ hq

theorem lexLt3_codeKey_eq_specBetter (w : ℚ) (p q : ProcState)
    (hp : 0 < p.capacity) (hq : 0 < q.capacity) :
    lexLt3 (codeKey w p) (codeKey w q) = specBetter w p q := by
  have h1 : (1 / p.capacity < 1 / q.capacity) ↔ (q.capacity < p.capacity) :=
    one_div_lt_one_div hp hq
  have h2 : (1 / p.capacity = 1 / q.capacity) ↔ (q.capacity = p.capacity) := by
    rw [one_div, one_div, inv_inj]
    exact eq_comm
  rw [Bool.eq_iff_iff]
  simp only [lexLt3, codeKey, specBetter, Bool.or_eq_true, Bool.and_eq_true,
    decide_eq_true_eq]
  rw [h1, h2]

theorem findIdx_beq_pid (procs : List ProcState)
    (hpid : ∀ k (hk : k < procs.length), procs[k].pid = k)
    (m : ProcState) (hm : m ∈ procs) :
    procs.findIdx (fun p => p == m) = m.pid := by
  rcases List.getElem_of_mem hm with ⟨k, hk, hget⟩
  have hpk : m.pid = k := by rw [← hget]; exact hpid k hk
  rw [hpk]
  rw [List.findIdx_eq hk]
  refine ⟨by rw [hget]; simp, ?_⟩
  intro j hj
  have hpj : procs[j].pid = j := hpid j (Nat.lt_trans hj hk)
  simp only [beq_eq_false_iff_ne, ne_eq]
  intro heq
  rw [heq, hpk] at hpj
  omega

/-- The loop invariant of `distribute_work`: process ids equal positions and
every capacity is positive. -/
def ProcInv (procs : List ProcState) : Prop :=
  (∀ k (hk : k < procs.length), procs[k].pid = k) ∧ ∀ p ∈ procs, 0 < p.capacity

theorem assignLoop_eq_spec : ∀ (sids : List (Nat × ℚ)) (procs : List ProcState)
    (dist : List (List Nat)), ProcInv procs → procs.length ≤ dist.length →
    (sids = [] ∨ procs ≠ []) →
    assignLoop sids (procs, dist) = Except.ok (sids.foldl specAssignStep (procs, dist)) := by
  intro sids
  induction sids with
  | nil => intro procs dist _ _ _; rfl
  | cons idw rest ih =>
    intro procs dist hinv hlen hne
    have hprocs : procs ≠ [] := by
      rcases hne with hne | hne
      · exact absurd hne (by simp)
      · exact hne
    have hzero : procs.any (fun p => p.capacity = 0) = false := by
      rw [List.any_eq_false]
      intro p hp
      simp only [decide_eq_true_eq]
      exact ne_of_gt (hinv.2 p hp)
    have hmin : pythonMin (fun p q => lexLt3 (codeKey idw.2 p) (codeKey idw.2 q)) procs =
        pythonMin (specBetter idw.2) procs :=
      pythonMin_congr _ _ procs
        (fun p hp q hq => lexLt3_codeKey_eq_specBetter idw.2 p q (hinv.2 p hp) (hinv.2 q hq))
    obtain ⟨x, xs, rfl⟩ : ∃ x xs, procs = x :: xs := by
      cases procs with
      | nil => exact absurd rfl hprocs
      | cons x xs => exact ⟨x, xs, rfl⟩
    obtain ⟨minload, hminl⟩ : ∃ m, pythonMin (specBetter idw.2) (x :: xs) = some m :=
      ⟨_, rfl⟩
    have hmem : minload ∈ x :: xs := pythonMin_mem _ _ _ hminl
    have hidx : (x :: xs).findIdx (fun p => p == minload) = minload.pid :=
      findIdx_beq_pid _ hinv.1 minload hmem
    have hpidlt : minload.pid < (x :: xs).length := by
      rcases List.getElem_of_mem hmem with ⟨k, hk, hget⟩
      have : minload.pid = k := by rw [← hget]; exact hinv.1 k hk
      omega
    have hdistlt : minload.pid < dist.length := Nat.lt_of_lt_of_le hpidlt hlen
    have hstep : assignStep (x :: xs, dist) idw =
        Except.ok ((x :: xs).set minload.pid
            { minload with load := minload.load + idw.2 },
          dist.set minload.pid (dist.getD minload.pid [] ++ [idw.1])) := by
      unfold assignStep
      simp only [hzero, Bool.false_eq_true, if_false, hmin, hminl, hidx, hdistlt, if_pos]
    have hspec : specAssignStep (x :: xs, dist) idw =
        ((x :: xs).set minload.pid { minload with load := minload.load + idw.2 },
          dist.set minload.pid (dist.getD minload.pid [] ++ [idw.1])) := by
      unfold specAssignStep
      simp only [hminl]
    have hinv2 : ProcInv ((x :: xs).set minload.pid
        { minload with load := minload.load + idw.2 }) := by
      constructor
      · intro k hk
        rw [List.length_set] at hk
        by_cases hki : k = minload.pid
        · subst hki
          rw [List.getElem_set_self (by simpa using hk)]
        · rw [List.getElem_set_ne (fun h => hki h.symm)]
          exact hinv.1 k hk
      · intro p hp
        rcases List.mem_or_eq_of_mem_set hp with hp | hp
        · exact hinv.2 p hp
        · rw [hp]
          exact hinv.2 minload hmem
    simp only [assignLoop, hstep, List.foldl_cons, hspec]
    apply ih
    · exact hinv2
    · rw [List.length_set, List.length_set]
      exact hlen
    · by_cases hr : rest = []
      · exact Or.inl hr
      · refine Or.inr ?_
        intro hcon
        have := congrArg List.length hcon
        rw [List.length_set] at this
        simp at this

theorem resolveWeights_eq_map (weights : Option (List (Nat × ℚ))) :
    ∀ (ids : List Nat), (∀ x ∈ ids, (weightOf weights x).isSome) →
    resolveWeights weights ids =
      Except.ok (ids.map (fun x => (x, (weightOf weights x).getD 1))) := by
  intro ids
  induction ids with
  | nil => intro _; rfl
  | cons x xs ih =>
    intro h
    rcases Option.isSome_iff_exists.mp (h x (List.mem_cons_self _ _)) with ⟨w, hw⟩
    have hxs := ih (fun z hz => h z (List.mem_cons_of_mem _ hz))
    simp only [resolveWeights, hw, hxs, List.map_cons, Option.getD_some]

theorem procInit_inv (caps : List ℚ) (hc : ∀ c ∈ caps, 0 < c) :
    ProcInv (caps.enum.map (fun ic => ProcState.mk ic.1 ic.2 0)) := by
  constructor
  · intro k hk
    simp only [List.length_map, List.enum_length] at hk
    rw [List.getElem_map, List.getElem_enum]
  · intro p hp
    rcases List.mem_map.mp hp with ⟨ic, hic, rfl⟩
    rcases List.mem_iff_getElem.mp hic with ⟨k, hk, hget⟩
    have hk2 : k < caps.length := by simpa using hk
    have : ic = (k, caps[k]) := by rw [← hget, List.getElem_enum]
    rw [this]
    exact hc _ (List.getElem_mem hk2)

/-- Claim C5: `distribute_work` equals the spec's reference greedy
algorithm — under a covering weights mapping and positive capacities (at
most the worker count many), the code's sort key `(normalized load,
1/capacity, id)` realises exactly the spec's tie-breaks (larger capacity,
then smaller index), and the code returns exactly the spec's assignment. -/
theorem distribute_work_eq_spec (nproc : Int) (ids : List Nat)
    (weights : Option (List (Nat × ℚ))) (capacities : Option (List ℚ))
    (hw : ∀ x ∈ ids, (weightOf weights x).isSome)
    (hc : ∀ c ∈ capsOf nproc capacities, 0 < c)
    (hlen : (capsOf nproc capacities).length ≤ nproc.toNat)
    (hne : ids = [] ∨ capsOf nproc capacities ≠ []) :
    distribute_work nproc ids weights capacities =
      Except.ok (distributeSpec nproc ids weights capacities) := by
  have hne2 : List.insertionSort (fun a b : Nat × ℚ => b.2 ≤ a.2)
        (ids.map (fun x => (x, (weightOf weights x).getD 1))) = [] ∨
      (capsOf nproc capacities).enum.map (fun ic => ProcState.mk ic.1 ic.2 0) ≠ [] := by
    rcases hne with hne | hne
    · subst hne
      exact Or.inl rfl
    · refine Or.inr ?_
      intro hcon
      have := congrArg List.length hcon
      simp only [List.length_map, List.enum_length, List.length_nil] at this
      exact hne (List.eq_nil_of_length_eq_zero this)
  have hloop := assignLoop_eq_spec
    (List.insertionSort (fun a b : Nat × ℚ => b.2 ≤ a.2)
      (ids.map (fun x => (x, (weightOf weights x).getD 1))))
    ((capsOf nproc capacities).enum.map (fun ic => ProcState.mk ic.1 ic.2 0))
    (List.replicate nproc.toNat []) (procInit_inv _ hc) (by simpa using hlen) hne2
  unfold distribute_work distributeSpec
  simp only [resolveWeights_eq_map weights ids hw, hloop]

theorem distribute_work_eq_spec_witness :
    (∀ x ∈ [0, 1, 2, 3], (weightOf none x).isSome) ∧
    (∀ c ∈ capsOf 2 (some [1, 3]), 0 < c) ∧
    (capsOf 2 (some [1, 3])).length ≤ (2 : Int).toNat ∧
    (([0, 1, 2, 3] : List Nat) = [] ∨ capsOf 2 (some [1, 3]) ≠ []) ∧
    distribute_work 2 [0, 1, 2, 3] none (some [1, 3]) =
      Except.ok (distributeSpec 2 [0, 1, 2, 3] none (some [1, 3])) := by
  refine ⟨by decide, by with_unfolding_all decide, by decide, Or.inr (by decide), ?_⟩
  exact distribute_work_eq_spec 2 [0, 1, 2, 3] none (some [1, 3]) (by decide)
    (by with_unfolding_all decide) (by decide) (Or.inr (by decide))

theorem flatten_set_append (a : Nat) : ∀ (dist : List (List Nat)) (i : Nat),
    i < dist.length →
    (dist.set i (dist.getD i [] ++ [a])).flatten.Perm (dist.flatten ++ [a]) := by
  intro dist
  induction dist with
  | nil => intro i hi; simp at hi
  | cons d ds ih =>
    intro i hi
    cases i with
    | zero =>
      simp only [List.set_cons_zero, List.getD_cons_zero, List.flatten_cons, List.append_assoc]
      exact List.Perm.append_left d (List.perm_append_comm.trans (List.Perm.refl _))
    | succ j =>
      have hj : j < ds.length := by simpa using hi
      simp only [List.set_cons_succ, List.getD_cons_succ, List.flatten_cons]
      calc (d ++ (ds.set j (ds.getD j [] ++ [a])).flatten).Perm
            (d ++ (ds.flatten ++ [a])) := List.Perm.append_left d (ih j hj)
        _ = (d ++ ds.flatten) ++ [a] := by rw [List.append_assoc]

theorem assignStep_ok (st : List ProcState × List (List Nat)) (idw : Nat × ℚ)
    (st2 : List ProcState × List (List Nat)) (h : assignStep st idw = Except.ok st2) :
    ∃ i, i < st.2.length ∧ st2.2 = st.2.set i (st.2.getD i [] ++ [idw.1]) ∧
      st2.1.length = st.1.length := by
  unfold assignStep at h
  split at h
  · exact absurd h (by simp)
  · split at h
    · exact absurd h (by simp)
    · split at h
      · simp only [Except.ok.injEq] at h
        refine ⟨st.1.findIdx (fun p => p == _), by assumption, ?_, ?_⟩
        · rw [← h]
        · rw [← h]
          simp
      · exact absurd h (by simp)

theorem assignLoop_flatten : ∀ (sids : List (Nat × ℚ))
    (st st' : List ProcState × List (List Nat)),
    assignLoop sids st = Except.ok st' →
    st'.2.flatten.Perm (st.2.flatten ++ sids.map Prod.fst) := by
  intro sids
  induction sids with
  | nil =>
    intro st st' h
    simp only [assignLoop, Except.ok.injEq] at h
    rw [← h]
    simp
  | cons idw rest ih =>
    intro st st' h
    simp only [assignLoop] at h
    split at h
    · exact absurd h (by simp)
    case h_2 st2 hstep =>
      rcases assignStep_ok st idw st2 hstep with ⟨i, hi, hdist, _⟩
      have hperm2 : st2.2.flatten.Perm (st.2.flatten ++ [idw.1]) := by
        rw [hdist]
        exact flatten_set_append idw.1 st.2 i hi
      have h3 : ((st.2.flatten ++ [idw.1]) ++ rest.map Prod.fst) =
          st.2.flatten ++ (idw :: rest).map Prod.fst := by
        rw [List.append_assoc]
        rfl
      exact ((ih st2 st' h).trans
        ((List.Perm.append_right _ hperm2).trans (List.Perm.of_eq h3)))

theorem flatten_replicate_nil (n : Nat) : (List.replicate n ([] : List Nat)).flatten = [] := by
  induction n with
  | zero => rfl
  | succ m ih => simp [List.replicate_succ, ih]

theorem resolveWeights_fst (weights : Option (List (Nat × ℚ))) :
    ∀ (ids : List Nat) (wpairs : List (Nat × ℚ)),
    resolveWeights weights ids = Except.ok wpairs → wpairs.map Prod.fst = ids := by
  intro ids
  induction ids with
  | nil =>
    intro wpairs h
    simp only [resolveWeights, Except.ok.injEq] at h
    rw [← h]
    rfl
  | cons x xs ih =>
    intro wpairs h
    simp only [resolveWeights] at h
    split at h
    · exact absurd h (by simp)
    case h_2 w hw =>
      split at h
      · exact absurd h (by simp)
      case h_2 rest hrest =>
        simp only [Except.ok.injEq] at h
        rw [← h, List.map_cons, ih rest hrest]

/-- Claim C6: every successful `distribute_work` call assigns every input
unit id exactly once across the workers — the concatenation of the
per-worker lists is a permutation of the input ids (so the total unit count
is preserved). -/
theorem distribute_work_coverage (nproc : Int) (ids : List Nat)
    (weights : Option (List (Nat × ℚ))) (capacities : Option (List ℚ))
    (d : List (List Nat))
    (h : distribute_work nproc ids weights capacities = Except.ok d) :
    d.flatten.Perm ids := by
  unfold distribute_work at h
  split at h
  · exact absurd h (by simp)
  case h_2 wpairs hres =>
    split at h
    · exact absurd h (by simp)
    case h_2 final hloop =>
      simp only [Except.ok.injEq] at h
      have hperm := assignLoop_flatten _ _ _ hloop
      rw [flatten_replicate_nil] at hperm
      simp only [List.nil_append] at hperm
      have hsort : (List.insertionSort (fun a b : Nat × ℚ => b.2 ≤ a.2) wpairs).map
          Prod.fst |>.Perm (wpairs.map Prod.fst) :=
        (List.perm_insertionSort _ wpairs).map Prod.fst
      rw [resolveWeights_fst weights ids wpairs hres] at hsort
      rw [← h]
      exact hperm.trans hsort

theorem distribute_work_coverage_witness :
    distribute_work 2 [0, 1, 2, 3] none none = Except.ok [[0, 2], [1, 3]] ∧
    ([[0, 2], [1, 3]] : List (List Nat)).flatten.Perm [0, 1, 2, 3] := by
  have hok : distribute_work 2 [0, 1, 2, 3] none none = Except.ok [[0, 2], [1, 3]] := by
    with_unfolding_all rfl
  exact ⟨hok, distribute_work_coverage 2 [0, 1, 2, 3] none none [[0, 2], [1, 3]] hok⟩

theorem lexLt3_codeKey_same_cap (w : ℚ) (p p2 : ProcState) (hcap : p.capacity = p2.capacity)
    (hpos : 0 < p2.capacity) :
    lexLt3 (codeKey w p) (codeKey w p2) =
      (decide (p.load < p2.load) || (decide (p.load = p2.load) && decide (p.pid < p2.pid))) := by
  rw [Bool.eq_iff_iff]
  simp only [lexLt3, codeKey, Bool.or_eq_true, Bool.and_eq_true, decide_eq_true_eq, hcap]
  have h1 : (p.load + w) / p2.capacity < (p2.load + w) / p2.capacity ↔ p.load < p2.load := by
    rw [div_lt_div_iff_of_pos_right hpos]
    exact add_lt_add_iff_right w
  have h2 : (p.load + w) / p2.capacity = (p2.load + w) / p2.capacity ↔ p.load = p2.load := by
    constructor
    · intro h
      have h3 := congrArg (fun x => x * p2.capacity) h
      simp only [div_mul_cancel₀ _ (ne_of_gt hpos)] at h3
      exact add_right_cancel h3
    · intro h
      rw [h]
  rw [h1, h2]
  simp [lt_irrefl]

/-- The process list after `k = q*n + r` uniform-weight assignments: the
first `r` workers carry `q+1` units of weight `w`, the rest `q`. -/
def unifProcs (n : Nat) (c w : ℚ) (q r : Nat) : List ProcState :=
  (List.range n).map (fun i => ProcState.mk i c (w * ((q : ℚ) + if i < r then 1 else 0)))

theorem pythonMin_unifProcs (n : Nat) (c w : ℚ) (q r : Nat) (hc : 0 < c) (hw : 0 < w)
    (hr : r < n) :
    pythonMin (fun p p2 => lexLt3 (codeKey w p) (codeKey w p2)) (unifProcs n c w q r) =
      some (ProcState.mk r c (w * (q : ℚ))) := by
  set f : Nat → ProcState :=
    fun i => ProcState.mk i c (w * ((q : ℚ) + if i < r then 1 else 0)) with hf
  have hlt : ∀ i j : Nat, lexLt3 (codeKey w (f i)) (codeKey w (f j)) =
      (decide ((f i).load < (f j).load) ||
        (decide ((f i).load = (f j).load) && decide (i < j))) := by
    intro i j
    exact lexLt3_codeKey_same_cap w (f i) (f j) rfl hc
  have hload_lo : ∀ i, ¬(i < r) → (f i).load = w * (q : ℚ) := by
    intro i hi
    simp [hf, hi]
  have hload_hi : ∀ i, i < r → (f i).load = w * ((q : ℚ) + 1) := by
    intro i hi
    simp [hf, hi]
  have hlo_lt_hi : w * (q : ℚ) < w * ((q : ℚ) + 1) :=
    mul_lt_mul_of_pos_left (lt_add_one _) hw
  have hsplit : unifProcs n c w q r =
      (List.range r).map f ++ (List.range (n - r)).map (fun j => f (r + j)) := by
    unfold unifProcs
    conv_lhs => rw [show n = r + (n - r) by omega]
    rw [List.range_add, List.map_append, List.map_map]
    rfl
  have hm : n - r = (n - r - 1) + 1 := by omega
  have htailB : (List.range (n - r)).map (fun j => f (r + j)) =
      f (r + 0) :: (List.range (n - r - 1)).map (fun j => f (r + (j + 1))) := by
    rw [hm, List.range_succ_eq_map, List.map_cons, List.map_map]
    rfl
  rw [hsplit, htailB]
  have hBfalse : ∀ y ∈ (List.range (n - r - 1)).map (fun j => f (r + (j + 1))),
      lexLt3 (codeKey w y) (codeKey w (f (r + 0))) = false := by
    intro y hy
    rcases List.mem_map.mp hy with ⟨j, _, rfl⟩
    rw [hlt]
    have h1 : (f (r + (j + 1))).load = w * (q : ℚ) := hload_lo _ (by omega)
    have h2 : (f (r + 0)).load = w * (q : ℚ) := hload_lo _ (by omega)
    have hpid : ¬(r + (j + 1) < r + 0) := by omega
    rw [h1, h2]
    simp [lt_irrefl, hpid]
  cases r with
  | zero =>
    simp only [List.range_zero, List.map_nil, List.nil_append]
    rw [pythonMin_keep _ _ _ hBfalse]
    simp [hf]
  | succ r0 =>
    have hA : (List.range (r0 + 1)).map f =
        f 0 :: (List.range r0).map (fun j => f (j + 1)) := by
      rw [List.range_succ_eq_map, List.map_cons, List.map_map]
      rfl
    rw [hA]
    have hAfalse : ∀ y ∈ (List.range r0).map (fun j => f (j + 1)),
        lexLt3 (codeKey w y) (codeKey w (f 0)) = false := by
      intro y hy
      rcases List.mem_map.mp hy with ⟨j, hj, rfl⟩
      rw [hlt]
      have hjr : j + 1 < r0 + 1 := by
        rw [List.mem_range] at hj
        omega
      rw [hload_hi _ hjr, hload_hi 0 (by omega)]
      simp [lt_irrefl]
    have hzlt : lexLt3 (codeKey w (f ((r0 + 1) + 0))) (codeKey w (f 0)) = true := by
      rw [hlt]
      rw [hload_lo _ (by omega), hload_hi 0 (by omega)]
      simp [hlo_lt_hi]
    rw [List.cons_append,
      pythonMin_switch (fun p p2 => lexLt3 (codeKey w p) (codeKey w p2)) (f 0)
        (f ((r0 + 1) + 0)) ((List.range r0).map (fun j => f (j + 1)))
        ((List.range (n - (r0 + 1) - 1)).map (fun j => f ((r0 + 1) + (j + 1))))
        hAfalse hzlt hBfalse]
    simp [hf]

theorem getD_set_self (l : List (List Nat)) (i : Nat) (v : List Nat) (h : i < l.length) :
    (l.set i v).getD i [] = v := by
  rw [List.getD_eq_getElem?_getD, List.getElem?_set_self (by simpa using h)]
  rfl

theorem getD_set_ne (l : List (List Nat)) (i j : Nat) (v : List Nat) (h : i ≠ j) :
    (l.set i v).getD j [] = l.getD j [] := by
  rw [List.getD_eq_getElem?_getD, List.getD_eq_getElem?_getD, List.getElem?_set_ne h]

theorem assignStep_uniform (n : Nat) (c w : ℚ) (q r : Nat) (uid : Nat)
    (dist : List (List Nat)) (hc : 0 < c) (hw : 0 < w) (hr : r < n)
    (hdlen : dist.length = n) :
    assignStep (unifProcs n c w q r, dist) (uid, w) =
      Except.ok
        (unifProcs n c w (if r + 1 = n then q + 1 else q) (if r + 1 = n then 0 else r + 1),
          dist.set r (dist.getD r [] ++ [uid])) := by
  have hzero : (unifProcs n c w q r).any (fun p => p.capacity = 0) = false := by
    rw [List.any_eq_false]
    intro p hp
    rcases List.mem_map.mp hp with ⟨i, _, rfl⟩
    simp only [decide_eq_true_eq]
    exact ne_of_gt hc
  have hpid : ∀ k (hk : k < (unifProcs n c w q r).length), (unifProcs n c w q r)[k].pid = k := by
    intro k hk
    unfold unifProcs
    unfold unifProcs at hk
    simp only [List.length_map, List.length_range] at hk
    rw [List.getElem_map, List.getElem_range]
  have hmem : ProcState.mk r c (w * (q : ℚ)) ∈ unifProcs n c w q r := by
    unfold unifProcs
    refine List.mem_map.mpr ⟨r, List.mem_range.mpr hr, ?_⟩
    simp
  have hidx : (unifProcs n c w q r).findIdx
      (fun p => p == ProcState.mk r c (w * (q : ℚ))) = r :=
    findIdx_beq_pid _ hpid _ hmem
  have hrd : r < dist.length := by omega
  have hset : (unifProcs n c w q r).set r
      (ProcState.mk r c (w * (q : ℚ) + w)) =
      unifProcs n c w (if r + 1 = n then q + 1 else q) (if r + 1 = n then 0 else r + 1) := by
    apply List.ext_getElem
    · simp [unifProcs]
    · intro k h1 h2
      have hkn : k < n := by
        simp only [List.length_set, unifProcs, List.length_map, List.length_range] at h1
        exact h1
      have hget : ∀ (q2 r2 : Nat) (hk2 : k < (unifProcs n c w q2 r2).length),
          (unifProcs n c w q2 r2)[k] =
            ProcState.mk k c (w * ((q2 : ℚ) + if k < r2 then 1 else 0)) := by
        intro q2 r2 hk2
        unfold unifProcs
        rw [List.getElem_map, List.getElem_range]
      rw [List.getElem_set, hget _ _ h2]
      by_cases hkr : r = k
      · rw [if_pos hkr]
        subst hkr
        by_cases hrn : r + 1 = n
        · rw [if_pos hrn, if_pos hrn]
          have h0 : ¬(r < 0) := by omega
          simp only [h0, if_false]
          have : w * ((q : ℚ) + 1 + 0) = w * (q : ℚ) + w := by ring
          rw [show ((q + 1 : Nat) : ℚ) = (q : ℚ) + 1 by push_cast; ring]
          rw [this]
        · rw [if_neg hrn, if_neg hrn]
          have h0 : r < r + 1 := by omega
          simp only [h0, if_true]
          have : w * ((q : ℚ) + 1) = w * (q : ℚ) + w := by ring
          rw [this]
      · rw [if_neg hkr]
        rw [hget q r (by unfold unifProcs; simp only [List.length_map, List.length_range]; exact hkn)]
        by_cases hrn : r + 1 = n
        · rw [if_pos hrn, if_pos hrn]
          have hklt : k < r := by omega
          have hk0 : ¬(k < 0) := by omega
          simp only [hklt, if_true, hk0, if_false]
          rw [show ((q + 1 : Nat) : ℚ) = (q : ℚ) + 1 by push_cast; ring]
          rw [show w * ((q : ℚ) + 1 + 0) = w * ((q : ℚ) + 1) by ring]
        · rw [if_neg hrn, if_neg hrn]
          have hiff : (k < r) ↔ (k < r + 1) := by omega
          simp only [hiff]
  unfold assignStep
  simp only [hzero, Bool.false_eq_true, if_false,
    pythonMin_unifProcs n c w q r hc hw hr, hidx, hrd, if_pos]
  rw [hset]

theorem assignLoop_uniform (n : Nat) (c w : ℚ) (hc : 0 < c) (hw : 0 < w) :
    ∀ (sids : List (Nat × ℚ)), (∀ p ∈ sids, p.2 = w) →
    ∀ (q r : Nat), r < n →
    ∀ (dist : List (List Nat)), dist.length = n →
    (∀ i, i < n → (dist.getD i []).length = q + (if i < r then 1 else 0)) →
    ∃ (dist' : List (List Nat)) (q' r' : Nat), r' < n ∧
      q' * n + r' = (q * n + r) + sids.length ∧
      assignLoop sids (unifProcs n c w q r, dist) =
        Except.ok (unifProcs n c w q' r', dist') ∧
      dist'.length = n ∧
      ∀ i, i < n → (dist'.getD i []).length = q' + (if i < r' then 1 else 0) := by
  intro sids
  induction sids with
  | nil =>
    intro _ q r hr dist hdlen hcnt
    exact ⟨dist, q, r, hr, by simp, rfl, hdlen, hcnt⟩
  | cons p rest ih =>
    intro hws q r hr dist hdlen hcnt
    obtain ⟨uid, pw⟩ := p
    have hpw : pw = w := hws (uid, pw) (List.mem_cons_self _ _)
    subst hpw
    have hstep := assignStep_uniform n c pw q r uid dist hc hw hr hdlen
    set q2 := if r + 1 = n then q + 1 else q with hq2
    set r2 := if r + 1 = n then 0 else r + 1 with hr2
    have hr2lt : r2 < n := by
      rw [hr2]
      by_cases hrn : r + 1 = n
      · simp only [hrn, if_true]
        omega
      · simp only [hrn, if_false]
        omega
    have hd1len : (dist.set r (dist.getD r [] ++ [uid])).length = n := by
      rw [List.length_set]
      exact hdlen
    have hd1cnt : ∀ i, i < n →
        ((dist.set r (dist.getD r [] ++ [uid])).getD i []).length =
          q2 + (if i < r2 then 1 else 0) := by
      intro i hi
      by_cases hir : r = i
      · subst hir
        rw [getD_set_self dist r _ (by omega)]
        rw [List.length_append, hcnt r hi]
        simp only [lt_irrefl, if_false, List.length_singleton]
        rw [hq2, hr2]
        by_cases hrn : r + 1 = n
        · simp only [hrn, if_true]
          have : ¬(r < 0) := by omega
          simp [this]
        · simp only [hrn, if_false]
          have : r < r + 1 := by omega
          simp [this]
      · rw [getD_set_ne dist r i _ hir]
        rw [hcnt i hi, hq2, hr2]
        by_cases hrn : r + 1 = n
        · simp only [hrn, if_true]
          have h1 : i < r := by omega
          have h2 : ¬(i < 0) := by omega
          simp [h1, h2]
        · simp only [hrn, if_false]
          have : (i < r) ↔ (i < r + 1) := by omega
          simp [this]
    rcases ih (fun p2 hp2 => hws p2 (List.mem_cons_of_mem _ hp2)) q2 r2 hr2lt
        (dist.set r (dist.getD r [] ++ [uid])) hd1len hd1cnt with
      ⟨dist', q', r', hr'lt, hsum, hloop, hd'len, hd'cnt⟩
    refine ⟨dist', q', r', hr'lt, ?_, ?_, hd'len, hd'cnt⟩
    · by_cases hrn : r + 1 = n
      · have hq2e : q2 = q + 1 := by rw [hq2, if_pos hrn]
        have hr2e : r2 = 0 := by rw [hr2, if_pos hrn]
        rw [hsum, hq2e, hr2e]
        have hmul : (q + 1) * n = q * n + n := by ring
        simp only [List.length_cons]
        omega
      · have hq2e : q2 = q := by rw [hq2, if_neg hrn]
        have hr2e : r2 = r + 1 := by rw [hr2, if_neg hrn]
        rw [hsum, hq2e, hr2e]
        simp only [List.length_cons]
        omega
    · simp only [assignLoop, hstep]
      exact hloop

theorem insertionSort_const_weight (w : ℚ) : ∀ (l : List (Nat × ℚ)),
    (∀ p ∈ l, p.2 = w) →
    List.insertionSort (fun a b : Nat × ℚ => b.2 ≤ a.2) l = l := by
  intro l
  induction l with
  | nil => intro _; rfl
  | cons x xs ih =>
    intro h
    have hx : x.2 = w := h x (List.mem_cons_self _ _)
    simp only [List.insertionSort]
    rw [ih (fun p hp => h p (List.mem_cons_of_mem _ hp))]
    cases xs with
    | nil => rfl
    | cons y ys =>
      have hy : y.2 = w := h y (by simp)
      simp only [List.orderedInsert]
      rw [if_pos]
      rw [hx, hy]

theorem initProcs_eq_unif (n : Nat) (c w : ℚ) :
    (List.replicate n c).enum.map (fun ic => ProcState.mk ic.1 ic.2 0) =
      unifProcs n c w 0 0 := by
  apply List.ext_getElem
  · simp [unifProcs]
  · intro k h1 h2
    have hk : k < n := by simpa using h1
    rw [List.getElem_map, List.getElem_enum]
    unfold unifProcs
    rw [List.getElem_map, List.getElem_range, List.getElem_replicate]
    simp

/-- Claim C7 (amended): with a uniform positive unit weight `w` and a
uniform positive worker capacity `c` (the defaults `weights=None`,
`capacities=None` are the case `w = c = 1`), a successful `distribute_work`
call with `|U|` divisible by the worker count `n` assigns exactly `|U|/n`
units to every worker. -/
theorem distribute_work_uniform_balance (nproc : Int) (ids : List Nat)
    (weights : Option (List (Nat × ℚ))) (capacities : Option (List ℚ)) (w c : ℚ)
    (hwpos : 0 < w) (hcpos : 0 < c)
    (hwall : ∀ x ∈ ids, weightOf weights x = some w)
    (hcap : capsOf nproc capacities = List.replicate nproc.toNat c)
    (hn : 0 < nproc.toNat) (hdvd : nproc.toNat ∣ ids.length)
    (d : List (List Nat))
    (hok : distribute_work nproc ids weights capacities = Except.ok d) :
    ∀ i, i < nproc.toNat → (d.getD i []).length = ids.length / nproc.toNat := by
  have hres : resolveWeights weights ids =
      Except.ok (ids.map (fun x => (x, (weightOf weights x).getD 1))) :=
    resolveWeights_eq_map weights ids (fun x hx => by rw [hwall x hx]; rfl)
  have hmapw : ids.map (fun x => (x, (weightOf weights x).getD 1)) =
      ids.map (fun x => (x, w)) := by
    apply List.map_congr_left
    intro x hx
    rw [hwall x hx]
    rfl
  have hsort : List.insertionSort (fun a b : Nat × ℚ => b.2 ≤ a.2)
      (ids.map (fun x => (x, w))) = ids.map (fun x => (x, w)) :=
    insertionSort_const_weight w _
      (by intro p hp; rcases List.mem_map.mp hp with ⟨x, _, rfl⟩; rfl)
  rcases assignLoop_uniform nproc.toNat c w hcpos hwpos (ids.map (fun x => (x, w)))
      (fun p hp => by rcases List.mem_map.mp hp with ⟨x, _, rfl⟩; rfl) 0 0 hn
      (List.replicate nproc.toNat []) (by simp)
      (fun i hi => by simp) with ⟨dist', q', r', hr', hsum, hloop, hd'len, hd'cnt⟩
  unfold distribute_work at hok
  split at hok
  · exact absurd hok (by simp)
  case h_2 wpairs heq =>
    have hw2 : wpairs = ids.map (fun x => (x, w)) := by
      rw [heq] at hres
      simp only [Except.ok.injEq] at hres
      exact hres.trans hmapw
    rw [hw2, hsort, hcap, initProcs_eq_unif nproc.toNat c w] at hok
    split at hok
    case h_1 e heq2 =>
      rw [hloop] at heq2
      exact absurd heq2 (by simp)
    case h_2 final heq2 =>
      rw [hloop] at heq2
      simp only [Except.ok.injEq] at heq2 hok
      have hd : d = dist' := by
        rw [← hok, ← heq2]
      have hlen : q' * nproc.toNat + r' = ids.length := by
        rw [hsum]
        simp
      have hr0 : r' = 0 := by
        have hdr : nproc.toNat ∣ r' := by
          have h1 : nproc.toNat ∣ q' * nproc.toNat + r' := by
            rw [hlen]
            exact hdvd
          exact (Nat.dvd_add_right (dvd_mul_left _ _)).mp h1
        exact Nat.eq_zero_of_dvd_of_lt hdr hr'
      have hq' : ids.length / nproc.toNat = q' := by
        apply Nat.div_eq_of_eq_mul_left hn
        rw [← hlen, hr0]
        ring
      intro i hi
      rw [hd, hd'cnt i hi, hr0, hq']
      simp

theorem uniform_zero_weight_unbalanced :
    distribute_work 2 [0, 1] (some [(0, 0), (1, 0)]) none = Except.ok [[0, 1], []] ∧
    (2 : Nat) ∣ ([0, 1] : List Nat).length ∧
    (([[0, 1], []] : List (List Nat)).getD 1 []).length ≠ ([0, 1] : List Nat).length / 2 :=
  ⟨by with_unfolding_all rfl, by decide, by decide⟩

theorem distribute_work_uniform_balance_witness :
    (0 : ℚ) < 1 ∧
    (∀ x ∈ [0, 1, 2, 3], weightOf none x = some 1) ∧
    capsOf 2 none = List.replicate (2 : Int).toNat 1 ∧
    0 < (2 : Int).toNat ∧ (2 : Int).toNat ∣ ([0, 1, 2, 3] : List Nat).length ∧
    distribute_work 2 [0, 1, 2, 3] none none = Except.ok [[0, 2], [1, 3]] ∧
    (([[0, 2], [1, 3]] : List (List Nat)).getD 0 []).length =
        ([0, 1, 2, 3] : List Nat).length / (2 : Int).toNat ∧
    (([[0, 2], [1, 3]] : List (List Nat)).getD 1 []).length =
      ([0, 1, 2, 3] : List Nat).length / (2 : Int).toNat := by
  have hok : distribute_work 2 [0, 1, 2, 3] none none = Except.ok [[0, 2], [1, 3]] := by
    with_unfolding_all rfl
  have h := distribute_work_uniform_balance 2 [0, 1, 2, 3] none none 1 1
    (by norm_num) (by norm_num) (by decide) (by decide) (by decide) (by decide)
    [[0, 2], [1, 3]] hok
  exact ⟨by norm_num, by decide, by decide, by decide, by decide, hok,
    h 0 (by decide), h 1 (by decide)⟩

theorem resolveWeights_error_of_missing (weights : Option (List (Nat × ℚ))) :
    ∀ (ids : List Nat), (∃ x ∈ ids, weightOf weights x = none) →
    ∃ e, resolveWeights weights ids = Except.error e := by
  intro ids
  induction ids with
  | nil => intro h; simp at h
  | cons x xs ih =>
    intro h
    cases hx : weightOf weights x with
    | none => exact ⟨"KeyError", by simp only [resolveWeights, hx]⟩
    | some w =>
      have hxs : ∃ z ∈ xs, weightOf weights z = none := by
        rcases h with ⟨z, hz, hzn⟩
        rcases List.mem_cons.mp hz with rfl | hz2
        · rw [hx] at hzn
          exact absurd hzn (by simp)
        · exact ⟨z, hz2, hzn⟩
      rcases ih hxs with ⟨e, he⟩
      exact ⟨e, by simp only [resolveWeights, hx, he]⟩

theorem assignLoop_ok_of_good : ∀ (sids : List (Nat × ℚ)) (procs : List ProcState)
    (dist : List (List Nat)), procs ≠ [] → (∀ p ∈ procs, p.capacity ≠ 0) →
    procs.length ≤ dist.length →
    ∃ st', assignLoop sids (procs, dist) = Except.ok st' := by
  intro sids
  induction sids with
  | nil => intro procs dist _ _ _; exact ⟨(procs, dist), rfl⟩
  | cons idw rest ih =>
    intro procs dist hne hcap hlen
    have hzero : procs.any (fun p => p.capacity = 0) = false := by
      rw [List.any_eq_false]
      intro p hp
      simpa using hcap p hp
    obtain ⟨x, xs, rfl⟩ : ∃ x xs, procs = x :: xs := by
      cases procs with
      | nil => exact absurd rfl hne
      | cons x xs => exact ⟨x, xs, rfl⟩
    obtain ⟨m, hm⟩ : ∃ m, pythonMin (fun p q => lexLt3 (codeKey idw.2 p) (codeKey idw.2 q))
        (x :: xs) = some m := ⟨_, rfl⟩
    have hmem := pythonMin_mem _ _ _ hm
    have hidx_lt : (x :: xs).findIdx (fun p => p == m) < (x :: xs).length :=
      List.findIdx_lt_length_of_exists ⟨m, hmem, by simp⟩
    have hlt2 : (x :: xs).findIdx (fun p => p == m) < dist.length :=
      Nat.lt_of_lt_of_le hidx_lt hlen
    have hstep : assignStep (x :: xs, dist) idw = Except.ok
        ((x :: xs).set ((x :: xs).findIdx (fun p => p == m))
            { m with load := m.load + idw.2 },
          dist.set ((x :: xs).findIdx (fun p => p == m))
            (dist.getD ((x :: xs).findIdx (fun p => p == m)) [] ++ [idw.1])) := by
      unfold assignStep
      simp only [hzero, Bool.false_eq_true, if_false, hm]
      rw [if_pos hlt2]
    have h1 : (x :: xs).set ((x :: xs).findIdx (fun p => p == m))
        { m with load := m.load + idw.2 } ≠ [] := by
      intro hcon
      have := congrArg List.length hcon
      simp at this
    have h2 : ∀ p ∈ (x :: xs).set ((x :: xs).findIdx (fun p => p == m))
        { m with load := m.load + idw.2 }, p.capacity ≠ 0 := by
      intro p hp
      rcases List.mem_or_eq_of_mem_set hp with hp | hp
      · exact hcap p hp
      · rw [hp]
        exact hcap m hmem
    have h3 : ((x :: xs).set ((x :: xs).findIdx (fun p => p == m))
        { m with load := m.load + idw.2 }).length ≤
        (dist.set ((x :: xs).findIdx (fun p => p == m))
          (dist.getD ((x :: xs).findIdx (fun p => p == m)) [] ++ [idw.1])).length := by
      rw [List.length_set, List.length_set]
      exact hlen
    rcases ih _ _ h1 h2 h3 with ⟨st', hst'⟩
    refine ⟨st', ?_⟩
    simp only [assignLoop, hstep]
    exact hst'

theorem assignLoop_error_of_bad (sids : List (Nat × ℚ)) (procs : List ProcState)
    (dist : List (List Nat)) (hs : sids ≠ [])
    (h : procs = [] ∨ ∃ p ∈ procs, p.capacity = 0) :
    ∃ e, assignLoop sids (procs, dist) = Except.error e := by
  obtain ⟨idw, rest, rfl⟩ : ∃ idw rest, sids = idw :: rest := by
    cases sids with
    | nil => exact absurd rfl hs
    | cons idw rest => exact ⟨idw, rest, rfl⟩
  rcases h with h | h
  · subst h
    exact ⟨"ValueError: min() arg is an empty sequence",
      by simp [assignLoop, assignStep, pythonMin]⟩
  · have hany : procs.any (fun p => p.capacity = 0) = true := by
      rw [List.any_eq_true]
      rcases h with ⟨p, hp, hp0⟩
      exact ⟨p, hp, by simpa using hp0⟩
    exact ⟨"ZeroDivisionError: division by zero",
      by simp only [assignLoop, assignStep, hany, if_true]⟩

theorem zero_cap_proc_of_mem (caps : List ℚ) (h0 : (0 : ℚ) ∈ caps) :
    ∃ p ∈ caps.enum.map (fun ic => ProcState.mk ic.1 ic.2 0), p.capacity = 0 := by
  rcases List.mem_iff_getElem.mp h0 with ⟨k, hk, hck⟩
  refine ⟨ProcState.mk k caps[k] 0, ?_, by simpa using hck⟩
  refine List.mem_map.mpr ⟨(k, caps[k]), ?_, rfl⟩
  rw [List.mem_iff_getElem]
  exact ⟨k, by simpa using hk, by rw [List.getElem_enum]⟩

/-- Claim C8 (amended): `distribute_work` raises only from four spots, each
reachable only when at least one unit id is present, and never retries:
(a) every error run has a missing weight (`KeyError`), an empty effective
capacity list (`ValueError` from `min`, in particular whenever the worker
count is ≤ 0 with no capacities given), a capacity exactly zero
(`ZeroDivisionError`), or more capacities than `nproc` — the only way the
greedy can select a process index outside the `nproc` assignment lists
(`IndexError`); (b) each of the first three conditions by itself forces an
error whenever a unit exists, so with at most `nproc` capacities the error
runs are exactly those three (making negative capacities silently
accepted, per the separate counterexample); (c) the surplus-capacity
`IndexError` is reachable: two equal capacities under one worker crash on
the second unit. -/
theorem distribute_work_error_characterization (nproc : Int) (ids : List Nat)
    (weights : Option (List (Nat × ℚ))) (capacities : Option (List ℚ)) :
    ((∃ e, distribute_work nproc ids weights capacities = Except.error e) →
      ids ≠ [] ∧ ((∃ x ∈ ids, weightOf weights x = none) ∨
        capsOf nproc capacities = [] ∨ (0 : ℚ) ∈ capsOf nproc capacities ∨
        nproc.toNat < (capsOf nproc capacities).length)) ∧
    ((ids ≠ [] ∧ ((∃ x ∈ ids, weightOf weights x = none) ∨
        capsOf nproc capacities = [] ∨ (0 : ℚ) ∈ capsOf nproc capacities)) →
      ∃ e, distribute_work nproc ids weights capacities = Except.error e) ∧
    distribute_work 1 [0, 1] none (some [1, 1]) =
      Except.error "IndexError: list index out of range" := by
  refine ⟨?_, ?_, by with_unfolding_all rfl⟩
  · rintro ⟨e, he⟩
    by_contra hnot
    push_neg at hnot
    by_cases hids : ids = []
    · subst hids
      have hok : distribute_work nproc [] weights capacities =
          Except.ok (List.replicate nproc.toNat []) := rfl
      rw [hok] at he
      exact absurd he (by simp)
    · rcases hnot hids with ⟨hall, hcne, h0notin, hlen⟩
      have hall2 : ∀ x ∈ ids, (weightOf weights x).isSome := by
        intro x hx
        rcases hw : weightOf weights x with _ | w
        · exact absurd hw (hall x hx)
        · rfl
      have hres := resolveWeights_eq_map weights ids hall2
      have hpne : (capsOf nproc capacities).enum.map
          (fun ic => ProcState.mk ic.1 ic.2 0) ≠ [] := by
        intro hcon
        have := congrArg List.length hcon
        simp only [List.length_map, List.enum_length, List.length_nil] at this
        exact hcne (List.eq_nil_of_length_eq_zero this)
      have hpcap : ∀ p ∈ (capsOf nproc capacities).enum.map
          (fun ic => ProcState.mk ic.1 ic.2 0), p.capacity ≠ 0 := by
        intro p hp
        rcases List.mem_map.mp hp with ⟨ic, hic, rfl⟩
        rcases List.mem_iff_getElem.mp hic with ⟨k, hk, hget⟩
        have hk2 : k < (capsOf nproc capacities).length := by simpa using hk
        have : ic = (k, (capsOf nproc capacities)[k]) := by rw [← hget, List.getElem_enum]
        rw [this]
        intro hcon
        exact h0notin (hcon ▸ List.getElem_mem hk2)
      rcases assignLoop_ok_of_good
          (List.insertionSort (fun a b : Nat × ℚ => b.2 ≤ a.2)
            (ids.map (fun x => (x, (weightOf weights x).getD 1)))) _
          (List.replicate nproc.toNat []) hpne hpcap (by simpa using hlen) with ⟨st', hok⟩
      unfold distribute_work at he
      split at he
      next e0 heq =>
        rw [hres] at heq
        exact absurd heq (by simp)
      next wpairs heq =>
        have hw2 : wpairs = ids.map (fun x => (x, (weightOf weights x).getD 1)) := by
          rw [heq] at hres
          simp only [Except.ok.injEq] at hres
          exact hres
        rw [hw2] at he
        split at he
        next e1 heq2 =>
          rw [hok] at heq2
          exact absurd heq2 (by simp)
        next final heq2 =>
          exact absurd he (by simp)
  · rintro ⟨hids, hcase⟩
    by_cases hall : ∀ x ∈ ids, (weightOf weights x).isSome
    · have hres := resolveWeights_eq_map weights ids hall
      rcases hcase with hmiss | hbad
      · rcases hmiss with ⟨x, hx, hxn⟩
        have := hall x hx
        rw [hxn] at this
        exact absurd this (by simp)
      · have hsne : List.insertionSort (fun a b : Nat × ℚ => b.2 ≤ a.2)
            (ids.map (fun x => (x, (weightOf weights x).getD 1))) ≠ [] := by
          intro hcon
          have := congrArg List.length hcon
          rw [List.length_insertionSort] at this
          simp only [List.length_map, List.length_nil] at this
          exact hids (List.eq_nil_of_length_eq_zero this)
        have hbad2 : (capsOf nproc capacities).enum.map
            (fun ic => ProcState.mk ic.1 ic.2 0) = [] ∨
            ∃ p ∈ (capsOf nproc capacities).enum.map
              (fun ic => ProcState.mk ic.1 ic.2 0), p.capacity = 0 := by
          rcases hbad with hbad | hbad
          · exact Or.inl (by rw [hbad]; rfl)
          · exact Or.inr (zero_cap_proc_of_mem _ hbad)
        rcases assignLoop_error_of_bad _ _ (List.replicate nproc.toNat []) hsne hbad2 with
          ⟨e, herr⟩
        refine ⟨e, ?_⟩
        unfold distribute_work
        simp only [hres, herr]
    · have hmiss : ∃ x ∈ ids, weightOf weights x = none := by
        push_neg at hall
        rcases hall with ⟨x, hx, hxn⟩
        refine ⟨x, hx, ?_⟩
        rcases hw : weightOf weights x with _ | w
        · rfl
        · rw [hw] at hxn
          exact absurd rfl hxn
      rcases resolveWeights_error_of_missing weights ids hmiss with ⟨e, herr⟩
      refine ⟨e, ?_⟩
      unfold distribute_work
      simp only [herr]

theorem negative_capacity_no_error :
    distribute_work 1 [0] none (some [-1]) = Except.ok [[0]] := by
  with_unfolding_all rfl

theorem distribute_work_error_characterization_witness :
    (([0] : List Nat) ≠ [] ∧ ((∃ x ∈ ([0] : List Nat), weightOf none x = none) ∨
      capsOf 1 (some [0]) = [] ∨ (0 : ℚ) ∈ capsOf 1 (some [0]))) ∧
    (∃ e, distribute_work 1 [0] none (some [0]) = Except.error e) := by
  have hrhs : ([0] : List Nat) ≠ [] ∧ ((∃ x ∈ ([0] : List Nat), weightOf none x = none) ∨
      capsOf 1 (some [0]) = [] ∨ (0 : ℚ) ∈ capsOf 1 (some [0])) := by
    refine ⟨by decide, Or.inr (Or.inr ?_)⟩
    with_unfolding_all decide
  exact ⟨hrhs,
    (distribute_work_error_characterization 1 [0] none (some [0])).2.1 hrhs⟩

theorem lookup_zip_range' {α : Type} : ∀ (l : List (List α)) (s p : Nat)
    (h : p < l.length),
    ((List.range' s l.length).zip l).lookup (s + p) = some l[p] := by
  intro l
  induction l with
  | nil => intro s p h; simp at h
  | cons a as ih =>
    intro s p h
    rw [List.length_cons, List.range'_succ, List.zip_cons_cons]
    cases p with
    | zero =>
      simp [List.lookup]
    | succ p0 =>
      have h0 : p0 < as.length := by simpa using h
      have hne : (s + (p0 + 1) == s) = false := by
        simp only [beq_eq_false_iff_ne, ne_eq]
        omega
      simp only [List.lookup, hne]
      rw [show s + (p0 + 1) = (s + 1) + p0 by omega, ih (s + 1) p0 h0]
      simp

theorem lookup_eq_of_perm {β : Type} : ∀ (l1 l2 : List (Nat × β)), l1.Perm l2 →
    (l1.map Prod.fst).Nodup → ∀ a, l1.lookup a = l2.lookup a := by
  intro l1 l2 hp
  induction hp with
  | nil => intro _ _; rfl
  | cons x t ih =>
    intro hnd a
    obtain ⟨k, v⟩ := x
    simp only [List.lookup]
    cases hak : (a == k) with
    | true => simp only [hak]
    | false =>
      simp only [hak]
      apply ih ?_ a
      simp only [List.map_cons, List.nodup_cons] at hnd
      exact hnd.2
  | swap x y l =>
    intro hnd a
    obtain ⟨k1, v1⟩ := x
    obtain ⟨k2, v2⟩ := y
    simp only [List.map_cons, List.nodup_cons, List.mem_cons] at hnd
    have hne : k2 ≠ k1 := fun h => hnd.1 (Or.inl h)
    rcases Bool.eq_false_or_eq_true (a == k2) with hb2 | hb2 <;>
      rcases Bool.eq_false_or_eq_true (a == k1) with hb1 | hb1
    · exact absurd ((eq_of_beq hb2).symm.trans (eq_of_beq hb1)) hne
    · simp only [List.lookup, hb1, hb2]
    · simp only [List.lookup, hb1, hb2]
    · simp only [List.lookup, hb1, hb2]
  | trans h1 h2 ih1 ih2 =>
    intro hnd a
    rw [ih1 hnd a, ih2 (((h1.map Prod.fst).nodup_iff).mp hnd) a]

theorem map_getD_range {α : Type} : ∀ (l : List (List α)),
    (List.range l.length).map (fun p => l.getD p []) = l := by
  intro l
  induction l with
  | nil => rfl
  | cons a as ih =>
    rw [List.length_cons, List.range_succ_eq_map, List.map_cons, List.map_map]
    have h1 : ((fun p => (a :: as).getD p []) ∘ Nat.succ) = fun p => as.getD p [] := rfl
    rw [h1, ih]
    rfl

/-- Claim C9: in distributed-ring mode the coordinator reconstructs a
target's result by concatenating the per-slice arrays in ascending
slice-index order; whatever order the rotation protocol delivered the
tagged per-slice results in, the merged sequence equals the concatenation
of the slices in slice order — i.e. it is ordered exactly like the
template's full redshift grid, whose slice decomposition the `slices`
argument models.  Instantiated at chi-squared, coefficient and penalty
arrays alike. -/
theorem mergeRingSlices_ordered {α : Type} (slices : List (List α))
    (acc : List (Nat × List α)) (hperm : acc.Perm (sliceResults slices)) :
    mergeRingSlices acc = slices.flatten := by
  have hkeys : (sliceResults slices).map Prod.fst = List.range slices.length := by
    unfold sliceResults
    exact List.map_fst_zip _ _ (by simp)
  have hkperm : (acc.map Prod.fst).Perm (List.range slices.length) := by
    rw [← hkeys]
    exact hperm.map Prod.fst
  have hsorted : List.insertionSort (fun a b : Nat => a ≤ b) (acc.map Prod.fst) =
      List.range slices.length := by
    exact List.eq_of_perm_of_sorted
      ((List.perm_insertionSort _ _).trans hkperm)
      (List.sorted_insertionSort _ _)
      (List.sorted_le_range _)
  have hnd : (acc.map Prod.fst).Nodup := hkperm.nodup_iff.mpr (List.nodup_range _)
  have hlook : ∀ p (hp : p < slices.length),
      acc.lookup p = some (slices.get ⟨p, hp⟩) := by
    intro p hp
    rw [lookup_eq_of_perm acc (sliceResults slices) hperm hnd p]
    unfold sliceResults
    have := lookup_zip_range' slices 0 p hp
    rw [List.range_eq_range']
    simpa using this
  unfold mergeRingSlices
  rw [hsorted]
  have hmap : (List.range slices.length).map (fun p => (acc.lookup p).getD []) =
      (List.range slices.length).map (fun p => slices.getD p []) := by
    apply List.map_congr_left
    intro p hp
    rw [List.mem_range] at hp
    rw [hlook p hp, Option.getD_some, List.getD_eq_getElem _ _ hp]
    rfl
  rw [hmap, map_getD_range]

/-- Witness for C9: a two-slice grid delivered out of order merges back
into grid order. -/
theorem mergeRingSlices_ordered_witness :
    ([(1, [(3 : ℚ)]), (0, [1, 2])]).Perm (sliceResults [[(1 : ℚ), 2], [3]]) ∧
    mergeRingSlices [(1, [(3 : ℚ)]), (0, [1, 2])] =
      ([[(1 : ℚ), 2], [3]]).flatten := by
  have hperm : ([(1, [(3 : ℚ)]), (0, [1, 2])]).Perm
      (sliceResults [[(1 : ℚ), 2], [3]]) := by
    with_unfolding_all decide
  exact ⟨hperm, mergeRingSlices_ordered [[(1 : ℚ), 2], [3]] _ hperm⟩
